import Mathlib

/-!
Shallow embedding of the `bulgakov-cache-script` content-export tool
(`src/utils.py`, `src/main.py`, `src/nrequests.py`) together with proofs
about its pure core: the path sanitizer, the `SequenceLimit` rate
limiter, the chapter/step grouping, the markdown renderer, the JSON
serialization used for structured output, the credential-file loader and
the asset filename policy.
-/

set_option maxHeartbeats 1000000
set_option maxRecDepth 4000

namespace Bulgakov

/-! ## Path sanitizer (`src/utils.py`, `santize_path`) -/

/-- Python's `\w` character class under its default Unicode matching:
a character is a word character when it is alphanumeric (Unicode
letters, decimal digits and numeric characters) or an underscore.
The predicate is modelled exactly on the code points the tool's data
can contain: the full ASCII and Latin-1 ranges (letters `A-Z a-z ª µ º
À-Ö Ø-ö ø-ÿ`, digits `0-9`, the numeric characters `² ³ ¹ ¼ ½ ¾`, and
`_`) and the Cyrillic letter blocks U+0400–U+0481 and U+048A–U+052F;
code points outside these blocks are outside the modelled repertoire
and mapped to `false`. -/
def pyWordChar (c : Char) : Bool :=
  let n := c.toNat
  (48 ≤ n && n ≤ 57) || (65 ≤ n && n ≤ 90) || (97 ≤ n && n ≤ 122) || n == 95 ||
  n == 0xAA || n == 0xB5 || n == 0xBA ||
  (0xC0 ≤ n && n ≤ 0xD6) || (0xD8 ≤ n && n ≤ 0xF6) || (0xF8 ≤ n && n ≤ 0xFF) ||
  n == 0xB2 || n == 0xB3 || n == 0xB9 || (0xBC ≤ n && n ≤ 0xBE) ||
  (0x400 ≤ n && n ≤ 0x481) || (0x48A ≤ n && n ≤ 0x52F)

/-- A character matched by the regex class `[\w\-_\. ]`, i.e. NOT matched
by the negated class `[^\w\-_\. ]` of `santize_path`. -/
def keepChar (c : Char) : Bool :=
  pyWordChar c || c == '-' || c == '_' || c == '.' || c == ' '

/-- `santize_path` from `src/utils.py`:
`re.sub(r'[^\w\-_\. ]', '_', source)` — every character outside the
class `[\w\-_\. ]` is replaced by `_`, character by character. -/
def santize_path (source : String) : String :=
  String.mk (source.data.map (fun c => if keepChar c then c else '_'))

/-- The ASCII-only character class `[A-Za-z0-9_.\- ]` that the spec
claims the sanitizer preserves (stated from the spec for comparison
with the code's class). -/
def specAllowedChar (c : Char) : Bool :=
  let n := c.toNat
  (48 ≤ n && n ≤ 57) || (65 ≤ n && n ≤ 90) || (97 ≤ n && n ≤ 122) ||
  c == '_' || c == '.' || c == '-' || c == ' '

/-! ## `SequenceLimit` (`src/utils.py`) — sequential accounting model -/

/-- State of one `SequenceLimit` instance: the constructor arguments
`calls_limit` and `period`, and the `requests_finish_time` list.
Monotonic-clock instants are modelled as naturals. -/
structure LimiterState where
  calls_limit : Nat
  period : Nat
  requests_finish_time : List Nat
deriving DecidableEq, Repr

/-- `SequenceLimit.sleep`: when the queue already holds at least
`calls_limit` entries, `pop(0)` removes the oldest finish time; the
awaiting itself changes no state. -/
def limiterSleep (st : LimiterState) : LimiterState :=
  if st.calls_limit ≤ st.requests_finish_time.length then
    { st with requests_finish_time := st.requests_finish_time.tail }
  else st

/-- One call through the `wrapper` closure of `SequenceLimit.__call__`,
viewed sequentially: run `sleep`, then `await func(...)`; on success
append `now + period` to `requests_finish_time`; when `func` raises,
the exception propagates out of the `async with` block before the
append line runs, so no timestamp is recorded. -/
def wrapperCall (st : LimiterState) (now : Nat) (result : Except Unit Unit) :
    LimiterState × Except Unit Unit :=
  let st1 := limiterSleep st
  match result with
  | Except.ok a =>
      ({ st1 with
          requests_finish_time := st1.requests_finish_time ++ [now + st.period] },
        Except.ok a)
  | Except.error e => (st1, Except.error e)

/-! ## `SequenceLimit` — concurrent transition system -/

/-- Phase of one task invoking a function wrapped by the limiter:
`waiting` before `async with self.semaphore` admits it, `sleeping`
inside `await self.sleep()`, `running` inside `await func(...)`,
`done` after the semaphore is released. -/
inductive Phase where
  | waiting | sleeping | running | done
deriving DecidableEq, Repr

/-- Shared state of one limiter instance plus the phases of all tasks
using it. -/
structure SysState where
  semaphore : Nat
  requests_finish_time : List Nat
  tasks : List Phase
deriving DecidableEq, Repr

/-- The queue update performed by `SequenceLimit.sleep`. -/
def popIfFull (calls_limit : Nat) (q : List Nat) : List Nat :=
  if calls_limit ≤ q.length then q.tail else q

/-- Interleaved steps of the tasks sharing one limiter. `acquire`
models `async with self.semaphore` admitting a waiting task when a
permit is free; `startRun` models returning from `await self.sleep()`
and entering `await func(...)`; `finishOk` models `func` returning:
the task appends a finish time and the context manager releases the
semaphore; `finishErr` models `func` raising: the semaphore is
released but no timestamp is appended. -/
inductive LimStep (calls_limit : Nat) : SysState → SysState → Prop where
  | acquire (s : SysState) (i : Nat) (h : s.tasks[i]? = some Phase.waiting)
      (hs : 0 < s.semaphore) :
      LimStep calls_limit s
        ⟨s.semaphore - 1, s.requests_finish_time, s.tasks.set i Phase.sleeping⟩
  | startRun (s : SysState) (i : Nat) (h : s.tasks[i]? = some Phase.sleeping) :
      LimStep calls_limit s
        ⟨s.semaphore, popIfFull calls_limit s.requests_finish_time,
          s.tasks.set i Phase.running⟩
  | finishOk (s : SysState) (i : Nat) (t : Nat)
      (h : s.tasks[i]? = some Phase.running) :
      LimStep calls_limit s
        ⟨s.semaphore + 1, s.requests_finish_time ++ [t], s.tasks.set i Phase.done⟩
  | finishErr (s : SysState) (i : Nat) (h : s.tasks[i]? = some Phase.running) :
      LimStep calls_limit s
        ⟨s.semaphore + 1, s.requests_finish_time, s.tasks.set i Phase.done⟩

/-- Initial state of a freshly constructed `SequenceLimit(calls_limit)`
shared by `n` tasks: `asyncio.Semaphore(calls_limit)` holds
`calls_limit` permits, the queue is empty, every task still waits. -/
def limInit (calls_limit n : Nat) : SysState :=
  ⟨calls_limit, [], List.replicate n Phase.waiting⟩

/-- States reachable by any interleaving of the `n` tasks. -/
inductive LimReachable (calls_limit n : Nat) : SysState → Prop where
  | init : LimReachable calls_limit n (limInit calls_limit n)
  | step {s s' : SysState} : LimReachable calls_limit n s →
      LimStep calls_limit s s' → LimReachable calls_limit n s'

/-- Number of tasks currently holding a semaphore permit. -/
def holdingCount (s : SysState) : Nat :=
  s.tasks.countP (fun p => p == Phase.sleeping || p == Phase.running)

/-- Number of wrapped calls currently in flight. -/
def inFlight (s : SysState) : Nat :=
  s.tasks.countP (fun p => p == Phase.running)

/-! ## `load_file` (`src/nrequests.py`) -/

/-- Python's substring test `needle in haystack`. -/
def pyContains (needle haystack : String) : Bool :=
  decide (needle.data <:+: haystack.data)

/-- An absolute URL in the sense of the spec: one carrying an explicit
http or https scheme (stated from the spec, for comparison with the
code's substring test). -/
def isAbsoluteUrl (link : String) : Bool :=
  List.isPrefixOf "http://".data link.data ||
    List.isPrefixOf "https://".data link.data

/-- aiohttp's resolution of a request url against a session
`base_url`: an absolute url is used as given, a relative one is joined
to the base origin. -/
def aiohttpResolve (base link : String) : String :=
  if isAbsoluteUrl link then link else base ++ link

/-- Outcome of `load_file`: the URL actually fetched (`none` when
aiohttp rejects a relative url on the fresh base-less session of the
second branch) and whether redirects are followed. -/
structure FetchPlan where
  url : Option String
  follow_redirects : Bool
deriving DecidableEq, Repr

/-- `load_file` from `src/nrequests.py`: if the substring `https` does
not occur in `link`, fetch through the shared session (whose base_url
is the platform origin) with `allow_redirects=True`; otherwise open a
fresh `aiohttp.ClientSession()` without a base url and fetch `link`
directly, also with `allow_redirects=True`. -/
def load_file_plan (base link : String) : FetchPlan :=
  if pyContains "https" link then
    ⟨if isAbsoluteUrl link then some link else none, true⟩
  else
    ⟨some (aiohttpResolve base link), true⟩

/-! ## Asset filenames (`src/main.py`) -/

/-- Python's `str.split(sep)` for a one-character separator: empty
pieces are kept, and splitting the empty string yields `[[]]`. -/
def pySplit (sep : Char) : List Char → List (List Char)
  | [] => [[]]
  | c :: rest =>
    if c = sep then [] :: pySplit sep rest
    else
      match pySplit sep rest with
      | [] => [[c]]
      | r :: rs => (c :: r) :: rs

/-- `download_image`'s filename policy (`src/main.py`): `photo_{id}`,
plus `.{ext}` where `ext` is what follows the last dot of the link's
last `/`-segment, only when that segment contains a dot
(`last_part.split('.')[-1] if len(last_part.split('.')) > 1`). -/
def download_image_filename (link : String) (image_id : Nat) : String :=
  let last_part := (pySplit '/' link.data).getLastD []
  let parts := pySplit '.' last_part
  if 1 < parts.length then
    "photo_" ++ toString image_id ++ "." ++ String.mk (parts.getLastD [])
  else
    "photo_" ++ toString image_id

/-- `download_document`'s filename policy (`src/main.py`):
`document_{id}.{ext}` where `ext` is everything after the last `.` of
the whole link string (`link.split('.')[-1]`), with no existence
check. -/
def download_document_filename (link : String) (document_id : Nat) : String :=
  "document_" ++ toString document_id ++ "." ++
    String.mk ((pySplit '.' link.data).getLastD [])

/-! ## Chapter grouping (`src/main.py`, `download_subject`) -/

/-- A chapter record of a subject: `{id, title}`. -/
structure ChapterRec where
  id : Nat
  title : String
deriving DecidableEq, Repr

/-- A step entry of a subject's flat step list:
`{id, chapter_id, hidden}`. -/
structure StepMeta where
  id : Nat
  chapter_id : Nat
  hidden : Bool
deriving DecidableEq, Repr

/-- Insertion-ordered dict assignment `d[k] = v`: overwrite the entry
with key `k` in place, else append a new entry at the end. -/
def dictInsert {β : Type} (m : List (Nat × β)) (k : Nat) (v : β) :
    List (Nat × β) :=
  match m with
  | [] => [(k, v)]
  | (k0, v0) :: rest =>
    if k0 = k then (k0, v) :: rest else (k0, v0) :: dictInsert rest k v

/-- Python `k in d` membership test. -/
def dictContains {β : Type} (m : List (Nat × β)) (k : Nat) : Bool :=
  m.any (fun p => p.1 == k)

/-- Python dict lookup `d[k]`. -/
def dictGet? {β : Type} (m : List (Nat × β)) (k : Nat) : Option β :=
  match m with
  | [] => none
  | (k0, v0) :: rest => if k0 = k then some v0 else dictGet? rest k

/-- `d[k].append(x)`: mutate the list stored under key `k` (the caller
has already checked membership; absent keys are left untouched). -/
def dictAppendAt (m : List (Nat × List Nat)) (k : Nat) (x : Nat) :
    List (Nat × List Nat) :=
  match m with
  | [] => []
  | (k0, v0) :: rest =>
    if k0 = k then (k0, v0 ++ [x]) :: rest
    else (k0, v0) :: dictAppendAt rest k x

/-- The two grouping loops of `download_subject`: first
`chapters_topics_mapper[chapter_id] = []` for every chapter of the
subject, then for every step, if its `chapter_id` is a known key and
the step is not hidden, `chapters_topics_mapper[chapter_id].append(step_id)`,
preserving step order. -/
def chapters_topics_mapper (chapters : List ChapterRec)
    (steps : List StepMeta) : List (Nat × List Nat) :=
  let init := chapters.foldl (fun m ch => dictInsert m ch.id []) []
  steps.foldl
    (fun m st =>
      if dictContains m st.chapter_id && !st.hidden then
        dictAppendAt m st.chapter_id st.id
      else m)
    init

/-! ## Markdown step rendering (`src/main.py`, `download_step`) -/

/-- A photo-like media record: `{id, normal}` where `normal` is the
download link used by `download_image`. -/
structure PhotoRec where
  id : Nat
  normal : String
deriving DecidableEq, Repr

/-- A `private_videos` entry: its `normal` thumbnail link is used by
the image pass, its `path`/`description` by the video-link pass. -/
structure VideoRec where
  id : Nat
  normal : String
  path : String
  description : String
deriving DecidableEq, Repr

/-- A link record: `{title, url}`. -/
structure LinkRec where
  title : String
  url : String
deriving DecidableEq, Repr

/-- A document record: `{id, path, description}`. -/
structure DocumentRec where
  id : Nat
  path : String
  description : String
deriving DecidableEq, Repr

/-- A section nested in a step. -/
structure SectionRec where
  title : String
  content : Option String
  photos : List PhotoRec
  links : List LinkRec
  videos : List VideoRec
  documents : List DocumentRec
deriving DecidableEq, Repr

/-- A fetched step record, as consumed by the markdown branch of
`download_step`. -/
structure StepRec where
  title : String
  public_text : String
  public_photos : List PhotoRec
  private_text : String
  private_videos : List VideoRec
  private_links : List LinkRec
  private_documents : List DocumentRec
  sections : List SectionRec
deriving DecidableEq, Repr

/-- `os.path.join("../assets/", filename)` for the filenames produced
here (they never start with `/`, so the join is a concatenation). -/
def assetsRelative (filename : String) : String := "../assets/" ++ filename

/-- The markdown `content` accumulator built by `download_step` in
`md` mode (`src/main.py`), with every
`download_image`/`download_document` call contributing its returned
filename; each `for` loop is the corresponding left fold. -/
def download_step_md (step : StepRec) : String :=
  let content : String := ""
  let content := content ++ "# " ++ step.title ++ "\n"
  let content := content ++ "\n"
  let content := content ++ "### Зачем это учить??\n"
  let content := content ++ step.public_text ++ "\n"
  let content := content ++ "\n"
  let content := step.public_photos.foldl (fun c photo =>
    c ++ "![" ++ toString photo.id ++ "](" ++
      assetsRelative (download_image_filename photo.normal photo.id) ++ ")\n")
    content
  let content := content ++ "### Как это учить???\n"
  let content := content ++ step.private_text ++ "\n"
  let content := content ++ "\n"
  let content := step.private_videos.foldl (fun c photo =>
    c ++ "![" ++ toString photo.id ++ "](" ++
      assetsRelative (download_image_filename photo.normal photo.id) ++ ")\n")
    content
  let content := step.private_links.foldl (fun c link =>
    c ++ "[Ссылка: " ++ link.title ++ "](" ++ link.url ++ ")\n") content
  let content := step.private_videos.foldl (fun c video =>
    c ++ "[Видео: " ++ video.description ++ "](" ++ video.path ++ ")\n") content
  let content := step.private_documents.foldl (fun c doc =>
    c ++ "[Документ " ++ doc.description ++ "](" ++
      assetsRelative (download_document_filename doc.path doc.id) ++ ")\n")
    content
  let content := step.sections.foldl (fun c sec =>
    let c := c ++ "### " ++ sec.title ++ "\n"
    let c := match sec.content with
      | some txt => c ++ txt ++ "\n"
      | none => c
    let c := sec.photos.foldl (fun c photo =>
      c ++ "![" ++ toString photo.id ++ "](" ++
        assetsRelative (download_image_filename photo.normal photo.id) ++ ")\n") c
    let c := sec.links.foldl (fun c link =>
      c ++ "[Ссылка: " ++ link.title ++ "](" ++ link.url ++ ")\n") c
    let c := sec.videos.foldl (fun c video =>
      c ++ "[Видео: " ++ video.description ++ "](" ++ video.path ++ ")\n") c
    let c := sec.documents.foldl (fun c doc =>
      c ++ "[Документ " ++ doc.description ++ "](" ++
        assetsRelative (download_document_filename doc.path doc.id) ++ ")\n") c
    c) content
  content

/-- Concatenation of a list of strings. -/
def strJoin : List String → String
  | [] => ""
  | s :: rest => s ++ strJoin rest

/-- One markdown image-reference line, as emitted for a record
materialized through `download_image` (spec step renderer, items 2–3). -/
def imageRefLine (image_id : Nat) (link : String) : String :=
  "![" ++ toString image_id ++ "](" ++
    assetsRelative (download_image_filename link image_id) ++ ")\n"

/-- One markdown link line (spec step renderer, item 4). -/
def linkLine (l : LinkRec) : String :=
  "[Ссылка: " ++ l.title ++ "](" ++ l.url ++ ")\n"

/-- One video link line using `path`/`description` (spec step
renderer, item 5). -/
def videoLinkLine (v : VideoRec) : String :=
  "[Видео: " ++ v.description ++ "](" ++ v.path ++ ")\n"

/-- One document link line (spec step renderer, item 6). -/
def documentLine (d : DocumentRec) : String :=
  "[Документ " ++ d.description ++ "](" ++
    assetsRelative (download_document_filename d.path d.id) ++ ")\n"

/-- The block a section contributes (spec step renderer, item 7):
heading, optional content, photos as image references, links, videos
as video-link lines ONLY, documents. -/
def sectionBlock (sec : SectionRec) : String :=
  "### " ++ sec.title ++ "\n" ++
  (match sec.content with | some txt => txt ++ "\n" | none => "") ++
  strJoin (sec.photos.map (fun p => imageRefLine p.id p.normal)) ++
  strJoin (sec.links.map linkLine) ++
  strJoin (sec.videos.map videoLinkLine) ++
  strJoin (sec.documents.map documentLine)

/-! ## JSON structured output
(`src/main.py` line 216:
`json.dumps(step, ensure_ascii=False, indent=4, sort_keys=True)`).
Step records are JSON values with integer numerics (ids and flags as
delivered by the platform API); Python dicts decoded from JSON have
unique keys, here a list of members. -/

/-- A JSON value as handled by the structured (`json`) output mode. -/
inductive Json where
  | null
  | bool (b : Bool)
  | num (n : Int)
  | str (s : String)
  | arr (elements : List Json)
  | obj (members : List (String × Json))

/-- Lowercase hex digit, as used by `\uXXXX` escapes. -/
def hexDigitChar (n : Nat) : Char :=
  if n < 10 then Char.ofNat (48 + n) else Char.ofNat (87 + n)

/-- A backslash followed by the escape letter. -/
def escSeq (e : Char) : List Char := '\\' :: [e]

/-- How `json.dumps(..., ensure_ascii=False)` escapes one character:
only `"`, `\` and control characters below `0x20` are escaped (the
five short escapes, else `\u00XX`); everything else is emitted raw. -/
def escapeChar (c : Char) : List Char :=
  if c = '"' then escSeq '"'
  else if c = '\\' then escSeq '\\'
  else if c = '\x08' then escSeq 'b'
  else if c = '\x09' then escSeq 't'
  else if c = '\x0a' then escSeq 'n'
  else if c = '\x0c' then escSeq 'f'
  else if c = '\x0d' then escSeq 'r'
  else if c.toNat < 0x20 then
    '\\' :: 'u' :: '0' :: '0' :: hexDigitChar (c.toNat / 16) ::
      [hexDigitChar (c.toNat % 16)]
  else [c]

/-- A JSON string token: quote, escaped content, quote. -/
def encodeString (s : String) : List Char :=
  '"' :: (s.data.map escapeChar).flatten ++ ['"']

/-- Decimal digit character. -/
def digitChar (n : Nat) : Char := Char.ofNat (48 + n)

/-- Decimal digits of a natural number, most significant first. -/
def natDigits (n : Nat) : List Char :=
  if n < 10 then [digitChar n]
  else natDigits (n / 10) ++ [digitChar (n % 10)]
decreasing_by exact Nat.div_lt_self (by omega) (by omega)

/-- Python's `repr` of an int, as emitted by `json.dumps`. -/
def intRepr (n : Int) : List Char :=
  if n < 0 then '-' :: natDigits n.natAbs else natDigits n.toNat

/-- The newline-plus-indentation emitted before an element at nesting
depth `level` under `indent=4`. -/
def nlIndent (level : Nat) : List Char :=
  '\n' :: List.replicate (4 * level) ' '

/-- Stable sort of an object's members by key, Python's
`sorted(dct.items())` for the unique-key dicts produced by JSON
decoding (string comparison is code-point lexicographic). -/
def sortMembers (l : List (String × Json)) : List (String × Json) :=
  List.insertionSort (fun a b => a.1 ≤ b.1) l

/-- Recursively sort every object's members by key. `sort_keys=True`
applies exactly this ordering to each object when it is emitted. -/
def canonicalize : Json → Json
  | Json.null => Json.null
  | Json.bool b => Json.bool b
  | Json.num n => Json.num n
  | Json.str s => Json.str s
  | Json.arr xs => Json.arr (xs.attach.map fun x => canonicalize x.1)
  | Json.obj kvs =>
      Json.obj (sortMembers (kvs.attach.map fun p => (p.1.1, canonicalize p.1.2)))
termination_by v => sizeOf v
decreasing_by
  · have hx := List.sizeOf_lt_of_mem x.2
    simp
    omega
  · have hp := List.sizeOf_lt_of_mem p.2
    obtain ⟨⟨a, b⟩, hmem⟩ := p
    simp at hp ⊢
    omega

mutual

/-- Characters emitted for one value by `json.dumps` with `indent=4`
(members already in emission order; `dumps` below pre-sorts them,
which yields the identical stream as sorting at each object). -/
def dumpVal (level : Nat) : Json → List Char
  | Json.null => "null".data
  | Json.bool true => "true".data
  | Json.bool false => "false".data
  | Json.num n => intRepr n
  | Json.str s => encodeString s
  | Json.arr [] => ['[', ']']
  | Json.arr (x :: xs) =>
      '[' :: (nlIndent (level + 1) ++ dumpItems (level + 1) x xs) ++
        nlIndent level ++ [']']
  | Json.obj [] => ['\x7b', '\x7d']
  | Json.obj ((k, v) :: kvs) =>
      '\x7b' :: (nlIndent (level + 1) ++ dumpMembers (level + 1) k v kvs) ++
        nlIndent level ++ ['\x7d']
termination_by v => sizeOf v
decreasing_by all_goals (simp_wf; try omega)

/-- Array items, separated by `,` plus newline-indent. -/
def dumpItems (level : Nat) (x : Json) : List Json → List Char
  | [] => dumpVal level x
  | y :: ys => dumpVal level x ++ ',' :: nlIndent level ++ dumpItems level y ys
termination_by xs => 1 + sizeOf x + sizeOf xs
decreasing_by all_goals (simp_wf; try omega)

/-- Object members `"key": value`, separated by `,` plus
newline-indent. -/
def dumpMembers (level : Nat) (k : String) (v : Json) :
    List (String × Json) → List Char
  | [] => encodeString k ++ ':' :: ' ' :: dumpVal level v
  | (k2, v2) :: ms => encodeString k ++ ':' :: ' ' :: dumpVal level v ++
      ',' :: nlIndent level ++ dumpMembers level k2 v2 ms
termination_by ms => 1 + sizeOf v + sizeOf ms
decreasing_by all_goals (simp_wf; try omega)

end

/-- `json.dumps(v, ensure_ascii=False, indent=4, sort_keys=True)`. -/
def dumps (v : Json) : String := String.mk (dumpVal 0 (canonicalize v))

/-- JSON whitespace (the characters `json.loads` skips). -/
def wsChar (c : Char) : Bool := c = ' ' || c = '\t' || c = '\n' || c = '\r'

/-- Drop leading JSON whitespace. -/
def skipWs : List Char → List Char
  | [] => []
  | c :: rest => if wsChar c then skipWs rest else c :: rest

/-- Value of a hex digit. -/
def hexVal? (c : Char) : Option Nat :=
  if 48 ≤ c.toNat ∧ c.toNat ≤ 57 then some (c.toNat - 48)
  else if 97 ≤ c.toNat ∧ c.toNat ≤ 102 then some (c.toNat - 87)
  else if 65 ≤ c.toNat ∧ c.toNat ≤ 70 then some (c.toNat - 55)
  else none

/-- The character denoted by a single-letter escape. -/
def shortEscape? (e : Char) : Option Char :=
  if e = '"' then some '"'
  else if e = '\\' then some '\\'
  else if e = '/' then some '/'
  else if e = 'b' then some '\x08'
  else if e = 'f' then some '\x0c'
  else if e = 'n' then some '\x0a'
  else if e = 'r' then some '\x0d'
  else if e = 't' then some '\x09'
  else none

/-- Parse the body of a JSON string after the opening quote, returning
the decoded characters and the input after the closing quote
(`\uXXXX` escapes are decoded as scalar values; surrogate pairs do not
occur in the emitted documents). -/
def parseStringBody : List Char → Option (List Char × List Char)
  | [] => none
  | c :: rest =>
    if c = '"' then some ([], rest)
    else if c = '\\' then
      match rest with
      | [] => none
      | e :: rest2 =>
        if e = 'u' then
          match rest2 with
          | h1 :: h2 :: h3 :: h4 :: rest3 =>
            match hexVal? h1, hexVal? h2, hexVal? h3, hexVal? h4 with
            | some v1, some v2, some v3, some v4 =>
              let code := ((v1 * 16 + v2) * 16 + v3) * 16 + v4
              if code < 0xD800 then
                match parseStringBody rest3 with
                | some (cs, rest4) => some (Char.ofNat code :: cs, rest4)
                | none => none
              else none
            | _, _, _, _ => none
          | _ => none
        else
          match shortEscape? e with
          | some ec =>
            match parseStringBody rest2 with
            | some (cs, rest3) => some (ec :: cs, rest3)
            | none => none
          | none => none
    else
      match parseStringBody rest with
      | some (cs, rest2) => some (c :: cs, rest2)
      | none => none

/-- Decimal digit value of a character. -/
def digit? (c : Char) : Option Nat :=
  if 48 ≤ c.toNat ∧ c.toNat ≤ 57 then some (c.toNat - 48) else none

/-- Consume a maximal digit run, accumulating its value. -/
def parseNatAux : List Char → Nat → Nat × List Char
  | [], acc => (acc, [])
  | c :: rest, acc =>
    match digit? c with
    | some d => parseNatAux rest (acc * 10 + d)
    | none => (acc, c :: rest)

/-- Parse an integer literal (the only numeric form the emitted
documents contain). -/
def parseNum : List Char → Option (Int × List Char)
  | [] => none
  | c :: rest =>
    if c = '-' then
      match rest with
      | [] => none
      | d :: _ =>
        if (digit? d).isSome then
          let p := parseNatAux rest 0
          some (-(p.1 : Int), p.2)
        else none
    else
      if (digit? c).isSome then
        let p := parseNatAux (c :: rest) 0
        some ((p.1 : Int), p.2)
      else none

mutual

/-- Dispatch on the first non-whitespace character of a value. -/
def parseValueCore (fuel : Nat) (c : Char) (rest : List Char) :
    Option (Json × List Char) :=
  if c = 'n' then
    match rest with
    | 'u' :: 'l' :: 'l' :: rest2 => some (Json.null, rest2)
    | _ => none
  else if c = 't' then
    match rest with
    | 'r' :: 'u' :: 'e' :: rest2 => some (Json.bool true, rest2)
    | _ => none
  else if c = 'f' then
    match rest with
    | 'a' :: 'l' :: 's' :: 'e' :: rest2 => some (Json.bool false, rest2)
    | _ => none
  else if c = '"' then
    match parseStringBody rest with
    | some (cs, rest2) => some (Json.str (String.mk cs), rest2)
    | none => none
  else if c = '[' then
    let r1 := skipWs rest
    if r1.head? = some ']' then some (Json.arr [], r1.tail)
    else parseItems fuel rest []
  else if c = '\x7b' then
    let r1 := skipWs rest
    if r1.head? = some '\x7d' then some (Json.obj [], r1.tail)
    else parseMembers fuel rest []
  else
    match parseNum (c :: rest) with
    | some (n, rest2) => some (Json.num n, rest2)
    | none => none

/-- Recursive-descent JSON value parser; `fuel` bounds the recursion
depth and is larger than any input of that length can need. -/
def parseValue : Nat → List Char → Option (Json × List Char)
  | 0, _ => none
  | fuel + 1, input =>
    match skipWs input with
    | [] => none
    | c :: rest => parseValueCore fuel c rest

/-- Parse the remaining items of a non-empty array, including the
closing bracket. -/
def parseItems : Nat → List Char → List Json → Option (Json × List Char)
  | 0, _, _ => none
  | fuel + 1, input, acc =>
    match parseValue fuel input with
    | some (v, rest) =>
      let r := skipWs rest
      if r.head? = some ',' then parseItems fuel r.tail (acc ++ [v])
      else if r.head? = some ']' then some (Json.arr (acc ++ [v]), r.tail)
      else none
    | none => none

/-- Parse the remaining members of a non-empty object, including the
closing brace. -/
def parseMembers : Nat → List Char → List (String × Json) →
    Option (Json × List Char)
  | 0, _, _ => none
  | fuel + 1, input, acc =>
    let r0 := skipWs input
    if r0.head? = some '"' then
      match parseStringBody r0.tail with
      | some (cs, rest2) =>
        let r1 := skipWs rest2
        if r1.head? = some ':' then
          match parseValue fuel r1.tail with
          | some (v, rest4) =>
            let r := skipWs rest4
            if r.head? = some ',' then
              parseMembers fuel r.tail (acc ++ [(String.mk cs, v)])
            else if r.head? = some '\x7d' then
              some (Json.obj (acc ++ [(String.mk cs, v)]), r.tail)
            else none
          | none => none
        else none
      | none => none
    else none

end

/-- `json.loads`: parse one document, requiring only whitespace after
it. -/
def loads (s : String) : Option Json :=
  match parseValue (s.data.length + 1) s.data with
  | some (v, rest) => if skipWs rest = [] then some v else none
  | none => none

mutual

/-- Fuel sufficient for `parseValue` to parse the emission of a
value. -/
def fuelVal : Json → Nat
  | Json.null => 1
  | Json.bool _ => 1
  | Json.num _ => 1
  | Json.str _ => 1
  | Json.arr [] => 1
  | Json.arr (x :: xs) => 1 + fuelItems x xs
  | Json.obj [] => 1
  | Json.obj ((k, v) :: kvs) => 1 + fuelMembers v kvs
termination_by v => sizeOf v
decreasing_by all_goals (simp_wf; try omega)

/-- Fuel sufficient for `parseItems`. -/
def fuelItems (x : Json) : List Json → Nat
  | [] => 1 + fuelVal x
  | y :: ys => 1 + fuelVal x + fuelItems y ys
termination_by xs => 1 + sizeOf x + sizeOf xs
decreasing_by all_goals (simp_wf; try omega)

/-- Fuel sufficient for `parseMembers` (depends only on the member
values). -/
def fuelMembers (v : Json) : List (String × Json) → Nat
  | [] => 1 + fuelVal v
  | (k2, v2) :: ms => 1 + fuelVal v + fuelMembers v2 ms
termination_by ms => 1 + sizeOf v + sizeOf ms
decreasing_by all_goals (simp_wf; try omega)

end

/-! ## Credential file loading (`src/main.py`, `sign_in`) -/

/-- Python-level failure modes of `sign_in`'s credential parsing. -/
inductive PyError where
  | argumentError (msg : String)
  | valueError
  | keyError (k : String)
  | nameError
  | typeError
  | jsonDecodeError
deriving DecidableEq, Repr

/-- `str.rfind`: index of the last occurrence, `-1` when absent. -/
def pyRfindAux (c : Char) : List Char → Nat → Int → Int
  | [], _, best => best
  | x :: rest, i, best =>
      pyRfindAux c rest (i + 1) (if x = c then (i : Int) else best)

/-- `p.rfind(c)` over the characters of `p`. -/
def pyRfind (c : Char) (l : List Char) : Int := pyRfindAux c l 0 (-1)

/-- `os.path.splitext`: split off the extension beginning at the last
dot of the basename, unless every character of the basename up to that
dot is itself a dot (leading-dot files such as `.env` have no
extension). -/
def pySplitext (p : String) : String × String :=
  let l := p.data
  let sepIndex := pyRfind '/' l
  let dotIndex := pyRfind '.' l
  if sepIndex < dotIndex then
    let filenameIndex := (sepIndex + 1).toNat
    let di := dotIndex.toNat
    if (List.range' filenameIndex (di - filenameIndex)).all
        (fun i => l.getD i ' ' = '.') then (p, "")
    else (String.mk (l.take di), String.mk (l.drop di))
  else (p, "")

/-- Python `str.isspace` for the ASCII whitespace characters. -/
def pyIsSpace (c : Char) : Bool :=
  c = ' ' || c = '\t' || c = '\n' || c = '\r' || c = '\x0b' || c = '\x0c'

/-- One iteration of `for line in file.read():` — `line` is a SINGLE
CHARACTER: `#` and whitespace are skipped, `=` splits into the empty
key (matching neither `login` nor `password`), and any other
character makes `line.strip().split('=', 1)` yield one piece, so the
two-name unpacking raises `ValueError`. -/
def envCharStep (st : Option String × Option String) (c : Char) :
    Except PyError (Option String × Option String) :=
  if c = '#' then Except.ok st
  else if pyIsSpace c then Except.ok st
  else if c = '=' then Except.ok st
  else Except.error PyError.valueError

/-- The whole character loop of the `.env` branch. -/
def envLoop : List Char → Option String × Option String →
    Except PyError (Option String × Option String)
  | [], st => Except.ok st
  | c :: rest, st =>
    match envCharStep st c with
    | Except.ok st2 => envLoop rest st2
    | Except.error e => Except.error e

/-- Lookup in a dict built from decoded JSON members (later duplicate
keys win, as in Python dicts). -/
def jsonDictGet (kvs : List (String × Json)) (key : String) : Option Json :=
  ((kvs.filter (fun p => p.1 == key)).getLast?).map (fun p => p.2)

/-- Is a JSON value Python's `None`? -/
def isNull : Json → Bool
  | Json.null => true
  | _ => false

/-- The credential-file handling of `sign_in` (`src/main.py`): split
the path with `os.path.splitext`; when the EXTENSION is `.json`,
decode JSON and read `login`/`password`; when the STEM (`file_name`,
not the extension — the code compares the wrong component) is exactly
`.env`, run the character loop; otherwise raise `ArgumentError`.
After the branches, `login is None or password is None` raises
`NameError` when the names were never bound. -/
def sign_in_credentials (path content : String) :
    Except PyError (Json × Json) :=
  let fe := pySplitext path
  let file_name := fe.1
  let file_extension := fe.2
  if file_extension = ".json" then
    match loads content with
    | none => Except.error PyError.jsonDecodeError
    | some (Json.obj kvs) =>
      match jsonDictGet kvs "login" with
      | none => Except.error (PyError.keyError "login")
      | some login =>
        match jsonDictGet kvs "password" with
        | none => Except.error (PyError.keyError "password")
        | some password =>
          if isNull login || isNull password then
            Except.error (PyError.argumentError
              "Login or password was not provided!")
          else Except.ok (login, password)
    | some _ => Except.error PyError.typeError
  else if file_name = ".env" then
    match envLoop content.data (none, none) with
    | Except.error e => Except.error e
    | Except.ok (some l, some p) =>
        Except.ok (Json.str l, Json.str p)
    | Except.ok _ => Except.error PyError.nameError
  else
    Except.error (PyError.argumentError
      ("An unfamiliar file type for credentials " ++ file_extension ++
        " from the " ++ file_name ++ " file"))

end Bulgakov

/-! ## Theorems -/

namespace Bulgakov

/-- Characters in the kept class are preserved, all others become `_`. -/
theorem santize_path_char (s : String) (i : Nat) (h : i < s.data.length) :
    (santize_path s).data[i]? =
      some (if keepChar s.data[i] then s.data[i] else '_') := by
  simp [santize_path, List.getElem?_map, List.getElem?_eq_getElem h]

/-- C6 counterexample: the Cyrillic letter `я` lies outside the spec's
class `[A-Za-z0-9_.\- ]`, so the claim requires it to be replaced by
`_`; the code's class is Python's Unicode-aware `\w`, which keeps it. -/
theorem santize_path_spec_class_counterexample :
    santize_path "я" = "я" ∧ specAllowedChar 'я' = false ∧ "я" ≠ "_" := by
  refine ⟨rfl, rfl, ?_⟩
  decide

/-- C6 (amended): a character of the input is kept exactly when it is a
Python word character (Unicode-aware `\w`, which on ASCII coincides
with `[A-Za-z0-9_]`) or one of `-`, `.`, space; every other character
is replaced by `_`. -/
theorem santize_path_exact_class (s : String) (i : Nat) (h : i < s.data.length) :
    ((santize_path s).data[i]? = some s.data[i] ↔ keepChar s.data[i] = true) ∧
    (keepChar s.data[i] = false → (santize_path s).data[i]? = some '_') := by
  have hchar := santize_path_char s i h
  by_cases hk : keepChar s.data[i] = true
  · rw [if_pos hk] at hchar
    refine ⟨⟨fun _ => hk, fun _ => hchar⟩, ?_⟩
    intro hfalse
    rw [hk] at hfalse
    cases hfalse
  · rw [if_neg hk] at hchar
    refine ⟨⟨?_, fun htrue => absurd htrue hk⟩, fun _ => hchar⟩
    intro hd
    rw [hchar] at hd
    have hinj : '_' = s.data[i] := Option.some.inj hd
    have hu : keepChar '_' = true := by decide
    rw [hinj] at hu
    exact hu

/-- Witness for the amended C6 theorem at a concrete input: in
`"a/b"` the character `/` (index 1) is replaced by `_`. -/
theorem santize_path_exact_class_witness :
    (santize_path "a/b").data[1]? = some '_' := by
  have h : 1 < "a/b".data.length := by decide
  have hk : keepChar (List.get "a/b".data ⟨1, h⟩) = false := rfl
  exact (santize_path_exact_class "a/b" 1 h).2 hk

/-- Updating index `i` of a list changes a `countP` by swapping the
contribution of the old element for that of the new one. -/
theorem countP_set_swap {α : Type} (p : α → Bool) :
    ∀ (l : List α) (i : Nat) (a b : α), l[i]? = some a →
      (l.set i b).countP p + (if p a then 1 else 0) =
        l.countP p + (if p b then 1 else 0) := by
  intro l
  induction l with
  | nil => intro i a b h; simp at h
  | cons x xs ih =>
    intro i a b h
    cases i with
    | zero =>
      simp only [List.getElem?_cons_zero, Option.some.injEq] at h
      subst h
      simp only [List.set_cons_zero, List.countP_cons]
      omega
    | succ j =>
      simp only [List.getElem?_cons_succ] at h
      have hrec := ih j a b h
      simp only [List.set_cons_succ, List.countP_cons]
      omega

/-- Every reachable state satisfies the semaphore invariant: the
number of permit-holding tasks plus the free permits equals
`calls_limit`. -/
theorem limiter_invariant (calls_limit n : Nat) (s : SysState)
    (h : LimReachable calls_limit n s) :
    holdingCount s + s.semaphore = calls_limit := by
  induction h with
  | init =>
    have hz : (List.replicate n Phase.waiting).countP
        (fun p => p == Phase.sleeping || p == Phase.running) = 0 := by
      apply List.countP_eq_zero.mpr
      intro a ha
      rw [List.eq_of_mem_replicate ha]
      decide
    simp [limInit, holdingCount, hz]
  | step hr hs ih =>
    cases hs with
    | acquire i hi hsem =>
      have hswap := countP_set_swap
        (fun p => p == Phase.sleeping || p == Phase.running)
        _ i Phase.waiting Phase.sleeping hi
      simp only [holdingCount] at ih ⊢
      simp at hswap
      omega
    | startRun i hi =>
      have hswap := countP_set_swap
        (fun p => p == Phase.sleeping || p == Phase.running)
        _ i Phase.sleeping Phase.running hi
      simp only [holdingCount] at ih ⊢
      simp at hswap
      omega
    | finishOk i t hi =>
      have hswap := countP_set_swap
        (fun p => p == Phase.sleeping || p == Phase.running)
        _ i Phase.running Phase.done hi
      simp only [holdingCount] at ih ⊢
      simp at hswap
      omega
    | finishErr i hi =>
      have hswap := countP_set_swap
        (fun p => p == Phase.sleeping || p == Phase.running)
        _ i Phase.running Phase.done hi
      simp only [holdingCount] at ih ⊢
      simp at hswap
      omega

/-- C1: for every limiter constructed with `calls_limit = N` and any
collection of tasks invoking functions wrapped by that same limiter
instance, in every reachable interleaving state at most `N` wrapped
calls are in flight: the `async with self.semaphore` gate admits at
most `N` holders and `await func(...)` runs only while holding it. -/
theorem limiter_concurrency_bound (calls_limit n : Nat) (s : SysState)
    (h : LimReachable calls_limit n s) : inFlight s ≤ calls_limit := by
  have hinv := limiter_invariant calls_limit n s h
  have hmono : inFlight s ≤ holdingCount s := by
    apply List.countP_mono_left
    intro a _ ha
    simp at ha ⊢
    exact Or.inr ha
  omega

/-- Witness for C1: with `calls_limit = 1` and two tasks, the state
where the first task runs and the second waits is reachable, and the
bound evaluates to `1 ≤ 1`. -/
theorem limiter_concurrency_bound_witness :
    inFlight ⟨0, [], [Phase.running, Phase.waiting]⟩ ≤ 1 := by
  have h1 : LimStep 1 (limInit 1 2) ⟨0, [], [Phase.sleeping, Phase.waiting]⟩ :=
    LimStep.acquire (limInit 1 2) 0 rfl (by decide)
  have h2 : LimStep 1 (⟨0, [], [Phase.sleeping, Phase.waiting]⟩ : SysState)
      ⟨0, [], [Phase.running, Phase.waiting]⟩ :=
    LimStep.startRun ⟨0, [], [Phase.sleeping, Phase.waiting]⟩ 0 rfl
  exact limiter_concurrency_bound 1 2 _
    (LimReachable.step (LimReachable.step LimReachable.init h1) h2)

/-- C2 counterexample: with an empty queue, a failing call leaves
`requests_finish_time` empty while a successful call at the same
instant appends `now + period`: failure is not recorded like
success, because the `append` line follows `await func(...)` with no
`try/finally`. -/
theorem limiter_failure_not_recorded_counterexample :
    (wrapperCall ⟨5, 1, []⟩ 0 (Except.error ())).1.requests_finish_time = [] ∧
    (wrapperCall ⟨5, 1, []⟩ 0 (Except.ok ())).1.requests_finish_time = [1] ∧
    ([] : List Nat) ≠ [1] :=
  ⟨rfl, rfl, by decide⟩

/-- C2 (amended): when the wrapped unit raises, the limiter records
NO completion timestamp — the state is exactly the state after
`sleep`'s pop; only a successful call appends `now + period`. -/
theorem limiter_failure_skips_accounting (st : LimiterState) (now : Nat) :
    (wrapperCall st now (Except.error ())).1 = limiterSleep st ∧
    (wrapperCall st now (Except.ok ())).1.requests_finish_time =
      (limiterSleep st).requests_finish_time ++ [now + st.period] :=
  ⟨rfl, rfl⟩

/-- C8 counterexample: `report-https.pdf` is not an absolute URL, so
the claim requires it to be resolved against the base origin, but the
code's `"https" in link` test sends it to the fresh base-less session,
where it is never joined to the base. -/
theorem load_file_base_resolution_counterexample :
    isAbsoluteUrl "report-https.pdf" = false ∧
    (load_file_plan "https://ithub.bulgakov.app/" "report-https.pdf").url ≠
      some ("https://ithub.bulgakov.app/" ++ "report-https.pdf") := by
  constructor
  · decide
  · intro hcontra
    have : (load_file_plan "https://ithub.bulgakov.app/" "report-https.pdf").url
        = none := by decide
    rw [this] at hcontra
    cases hcontra

/-- C8 (amended): the url is resolved against the base origin iff the
substring `https` does not occur in it AND it is not already absolute;
redirects are followed in both branches. -/
theorem load_file_base_resolution (base link : String) (hbase : base ≠ "") :
    (load_file_plan base link).follow_redirects = true ∧
    ((load_file_plan base link).url = some (base ++ link) ↔
      pyContains "https" link = false ∧ isAbsoluteUrl link = false) := by
  have hne : ∀ s : String, s ≠ base ++ s := by
    intro s hs
    have hlen := congrArg String.length hs
    rw [String.length_append] at hlen
    have hb0 : base.length = 0 := by omega
    apply hbase
    cases base with
    | mk d =>
      cases d with
      | nil => rfl
      | cons c cs => simp [String.length] at hb0
  unfold load_file_plan
  by_cases hc : pyContains "https" link = true
  · rw [if_pos hc]
    by_cases ha : isAbsoluteUrl link = true
    · rw [if_pos ha]
      refine ⟨rfl, ?_⟩
      constructor
      · intro hurl
        exact absurd (Option.some.inj hurl) (hne link)
      · intro ⟨hcf, _⟩
        rw [hc] at hcf
        cases hcf
    · rw [if_neg ha]
      refine ⟨rfl, ?_⟩
      constructor
      · intro hurl
        cases hurl
      · intro ⟨hcf, _⟩
        rw [hc] at hcf
        cases hcf
  · rw [if_neg hc]
    refine ⟨rfl, ?_⟩
    unfold aiohttpResolve
    by_cases ha : isAbsoluteUrl link = true
    · rw [if_pos ha]
      constructor
      · intro hurl
        exact absurd (Option.some.inj hurl) (hne link)
      · intro ⟨_, haf⟩
        rw [ha] at haf
        cases haf
    · rw [if_neg ha]
      simp only [Bool.not_eq_true] at hc ha
      exact ⟨fun _ => ⟨hc, ha⟩, fun _ => rfl⟩

/-- Witness for the amended C8 theorem: a plain relative filename is
joined to the base origin. -/
theorem load_file_base_resolution_witness :
    (load_file_plan "https://x/" "a.png").url = some ("https://x/" ++ "a.png") := by
  have h := load_file_base_resolution "https://x/" "a.png" (by decide)
  exact h.2.mpr (by decide)

/-- `pySplit` never returns an empty list of pieces. -/
theorem pySplit_ne_nil (sep : Char) : ∀ l : List Char, pySplit sep l ≠ [] := by
  intro l
  induction l with
  | nil => simp [pySplit]
  | cons c rest ih =>
    by_cases hc : c = sep
    · simp [pySplit, hc]
    · simp only [pySplit, if_neg hc]
      cases hsplit : pySplit sep rest with
      | nil => simp
      | cons r rs => simp

/-- Splitting on a separator that does not occur yields the single
piece equal to the whole input. -/
theorem pySplit_of_not_mem (sep : Char) :
    ∀ l : List Char, sep ∉ l → pySplit sep l = [l] := by
  intro l
  induction l with
  | nil => intro _; rfl
  | cons c rest ih =>
    intro hmem
    have hc : c ≠ sep := fun hc => hmem (hc ▸ List.mem_cons_self c rest)
    have hrest : sep ∉ rest := fun hr => hmem (List.mem_cons_of_mem c hr)
    simp only [pySplit, if_neg hc, ih hrest]

/-- If the separator occurs in the input, the split has at least two
pieces. -/
theorem pySplit_length_two (sep : Char) :
    ∀ l : List Char, sep ∈ l → 2 ≤ (pySplit sep l).length := by
  intro l
  induction l with
  | nil => intro h; cases h
  | cons c rest ih =>
    intro hmem
    by_cases hc : c = sep
    · simp only [pySplit, if_pos hc, List.length_cons]
      have := pySplit_ne_nil sep rest
      have : 1 ≤ (pySplit sep rest).length := by
        cases hsplit : pySplit sep rest with
        | nil => exact absurd hsplit (pySplit_ne_nil sep rest)
        | cons r rs => simp
      omega
    · have hrest : sep ∈ rest := by
        cases List.mem_cons.mp hmem with
        | inl h => exact absurd h.symm hc
        | inr h => exact h
      have hlen := ih hrest
      simp only [pySplit, if_neg hc]
      cases hsplit : pySplit sep rest with
      | nil => exact absurd hsplit (pySplit_ne_nil sep rest)
      | cons r rs =>
        rw [hsplit] at hlen
        simp at hlen ⊢
        omega

/-- For a nonempty tail, `getLastD` skips the head. -/
theorem getLastD_cons_of_ne_nil {α : Type} (x d : α) (l : List α)
    (h : l ≠ []) : (x :: l).getLastD d = l.getLastD d := by
  cases l with
  | nil => exact absurd rfl h
  | cons y ys => simp [List.getLastD_cons]

/-- The last piece of a split at the final separator occurrence is the
suffix after that occurrence. -/
theorem pySplit_getLast_append (sep : Char) :
    ∀ (a b : List Char), sep ∉ b →
      (pySplit sep (a ++ sep :: b)).getLastD [] = b := by
  intro a
  induction a with
  | nil =>
    intro b hb
    simp only [List.nil_append, pySplit, if_pos rfl, pySplit_of_not_mem sep b hb]
    rfl
  | cons c a' ih =>
    intro b hb
    by_cases hc : c = sep
    · show (pySplit sep (c :: (a' ++ sep :: b))).getLastD [] = b
      simp only [pySplit, if_pos hc]
      rw [getLastD_cons_of_ne_nil _ _ _ (pySplit_ne_nil sep (a' ++ sep :: b))]
      exact ih b hb
    · show (pySplit sep (c :: (a' ++ sep :: b))).getLastD [] = b
      simp only [pySplit, if_neg hc]
      have hmem : sep ∈ a' ++ sep :: b := by
        apply List.mem_append_right
        exact List.mem_cons_self sep b
      have hlen := pySplit_length_two sep (a' ++ sep :: b) hmem
      cases hsplit : pySplit sep (a' ++ sep :: b) with
      | nil => exact absurd hsplit (pySplit_ne_nil sep _)
      | cons r rs =>
        rw [hsplit] at hlen
        have hrs : rs ≠ [] := by
          intro hrsnil
          rw [hrsnil] at hlen
          simp at hlen
        rw [getLastD_cons_of_ne_nil _ _ _ hrs]
        have := ih b hb
        rw [hsplit] at this
        rw [getLastD_cons_of_ne_nil _ _ _ hrs] at this
        exact this

/-- C10: the document filename is `document_{id}.` followed by the
substring after the last `.` of the entire source link (first
conjunct, where the suffix `b` may contain `/`), and for a link with
no `.` at all the operation still produces `document_{id}.` followed
by the whole link (second conjunct) — `'x'.split('.')[-1]` never
fails. -/
theorem download_document_filename_spec (document_id : Nat)
    (a b link2 : List Char) (hb : '.' ∉ b) (h2 : '.' ∉ link2) :
    download_document_filename (String.mk (a ++ '.' :: b)) document_id =
      "document_" ++ toString document_id ++ "." ++ String.mk b ∧
    download_document_filename (String.mk link2) document_id =
      "document_" ++ toString document_id ++ "." ++ String.mk link2 := by
  constructor
  · unfold download_document_filename
    have hdata : (String.mk (a ++ '.' :: b)).data = a ++ '.' :: b := rfl
    rw [hdata, pySplit_getLast_append '.' a b hb]
  · unfold download_document_filename
    have hdata : (String.mk link2).data = link2 := rfl
    rw [hdata, pySplit_of_not_mem '.' link2 h2]
    rfl

/-- Witness for C10: `https://h.com/file` with id 5 yields
`document_5.com/file` (the extension is cut from the whole link, so it
contains `/`), and the dot-free link `binfile` yields
`document_5.binfile` without raising. -/
theorem download_document_filename_spec_witness :
    download_document_filename "https://h.com/file" 5 = "document_5.com/file" ∧
    download_document_filename "binfile" 5 = "document_5.binfile" := by
  have h := download_document_filename_spec 5 "https://h".data "com/file".data
    "binfile".data (by decide) (by decide)
  constructor
  · have h1 := h.1
    simpa using h1
  · have h2 := h.2
    simpa using h2

/-- C9: the sanitizer is idempotent: sanitizing twice equals sanitizing
once, because every character it emits (a kept character or `_`) is
itself kept. -/
theorem santize_path_idempotent (s : String) :
    santize_path (santize_path s) = santize_path s := by
  have hmap : ∀ l : List Char,
      (l.map (fun c => if keepChar c then c else '_')).map
        (fun c => if keepChar c then c else '_') =
      l.map (fun c => if keepChar c then c else '_') := by
    intro l
    rw [List.map_map]
    apply List.map_congr_left
    intro c _
    by_cases hk : keepChar c
    · simp [hk]
    · simp [hk]
  simp [santize_path, hmap]

/-- Accumulating one formatted line per element with a left fold
appends the concatenation of all the lines. -/
theorem foldl_append_strJoin {α : Type} {g : String → α → String}
    {f : α → String} (hg : ∀ c x, g c x = c ++ f x) :
    ∀ (l : List α) (c : String), l.foldl g c = c ++ strJoin (l.map f) := by
  intro l
  induction l with
  | nil =>
    intro c
    simp [strJoin]
  | cons x xs ih =>
    intro c
    simp only [List.foldl_cons, List.map_cons, strJoin]
    rw [hg, ih, String.append_assoc]

/-- C4: the markdown document decomposes into the fixed blocks: every
`private_videos` entry is rendered twice — first as an image reference
materialized from its `normal` thumbnail (same pass as photos), later
again as a video link line from its `path`/`description` — while in
`sectionBlock` the videos of a section appear exactly once, as video
link lines only, never as image references. -/
theorem download_step_md_video_duplication (step : StepRec) :
    download_step_md step =
      "# " ++ step.title ++ "\n" ++ "\n" ++
      "### Зачем это учить??\n" ++ step.public_text ++ "\n" ++ "\n" ++
      strJoin (step.public_photos.map (fun p => imageRefLine p.id p.normal)) ++
      "### Как это учить???\n" ++ step.private_text ++ "\n" ++ "\n" ++
      strJoin (step.private_videos.map (fun v => imageRefLine v.id v.normal)) ++
      strJoin (step.private_links.map linkLine) ++
      strJoin (step.private_videos.map videoLinkLine) ++
      strJoin (step.private_documents.map documentLine) ++
      strJoin (step.sections.map sectionBlock) := by
  have himgP : ∀ (l : List PhotoRec) (c : String),
      l.foldl (fun c photo =>
        c ++ "![" ++ toString photo.id ++ "](" ++
          assetsRelative (download_image_filename photo.normal photo.id) ++ ")\n")
        c = c ++ strJoin (l.map (fun p => imageRefLine p.id p.normal)) :=
    foldl_append_strJoin (fun c x => by
      simp [imageRefLine, String.append_assoc])
  have himgV : ∀ (l : List VideoRec) (c : String),
      l.foldl (fun c photo =>
        c ++ "![" ++ toString photo.id ++ "](" ++
          assetsRelative (download_image_filename photo.normal photo.id) ++ ")\n")
        c = c ++ strJoin (l.map (fun v => imageRefLine v.id v.normal)) :=
    foldl_append_strJoin (fun c x => by
      simp [imageRefLine, String.append_assoc])
  have hlink : ∀ (l : List LinkRec) (c : String),
      l.foldl (fun c link =>
        c ++ "[Ссылка: " ++ link.title ++ "](" ++ link.url ++ ")\n") c =
          c ++ strJoin (l.map linkLine) :=
    foldl_append_strJoin (fun c x => by
      simp [linkLine, String.append_assoc])
  have hvid : ∀ (l : List VideoRec) (c : String),
      l.foldl (fun c video =>
        c ++ "[Видео: " ++ video.description ++ "](" ++ video.path ++ ")\n") c =
          c ++ strJoin (l.map videoLinkLine) :=
    foldl_append_strJoin (fun c x => by
      simp [videoLinkLine, String.append_assoc])
  have hdoc : ∀ (l : List DocumentRec) (c : String),
      l.foldl (fun c doc =>
        c ++ "[Документ " ++ doc.description ++ "](" ++
          assetsRelative (download_document_filename doc.path doc.id) ++ ")\n")
        c = c ++ strJoin (l.map documentLine) :=
    foldl_append_strJoin (fun c x => by
      simp [documentLine, String.append_assoc])
  have hsec : ∀ (l : List SectionRec) (c : String),
      l.foldl (fun c sec =>
        let c := c ++ "### " ++ sec.title ++ "\n"
        let c := match sec.content with
          | some txt => c ++ txt ++ "\n"
          | none => c
        let c := sec.photos.foldl (fun c photo =>
          c ++ "![" ++ toString photo.id ++ "](" ++
            assetsRelative (download_image_filename photo.normal photo.id) ++
              ")\n") c
        let c := sec.links.foldl (fun c link =>
          c ++ "[Ссылка: " ++ link.title ++ "](" ++ link.url ++ ")\n") c
        let c := sec.videos.foldl (fun c video =>
          c ++ "[Видео: " ++ video.description ++ "](" ++ video.path ++ ")\n") c
        let c := sec.documents.foldl (fun c doc =>
          c ++ "[Документ " ++ doc.description ++ "](" ++
            assetsRelative (download_document_filename doc.path doc.id) ++
              ")\n") c
        c) c = c ++ strJoin (l.map sectionBlock) := by
    apply foldl_append_strJoin
    intro c sec
    show (let c1 := c ++ "### " ++ sec.title ++ "\n"
      let c2 := match sec.content with
        | some txt => c1 ++ txt ++ "\n"
        | none => c1
      let c3 := sec.photos.foldl (fun c photo =>
        c ++ "![" ++ toString photo.id ++ "](" ++
          assetsRelative (download_image_filename photo.normal photo.id) ++
            ")\n") c2
      let c4 := sec.links.foldl (fun c link =>
        c ++ "[Ссылка: " ++ link.title ++ "](" ++ link.url ++ ")\n") c3
      let c5 := sec.videos.foldl (fun c video =>
        c ++ "[Видео: " ++ video.description ++ "](" ++ video.path ++ ")\n") c4
      let c6 := sec.documents.foldl (fun c doc =>
        c ++ "[Документ " ++ doc.description ++ "](" ++
          assetsRelative (download_document_filename doc.path doc.id) ++
            ")\n") c5
      c6) = c ++ sectionBlock sec
    simp only []
    rw [himgP, hlink, hvid, hdoc]
    cases hcc : sec.content with
    | some txt =>
      simp [sectionBlock, hcc, String.append_assoc]
    | none =>
      simp [sectionBlock, hcc, String.append_assoc]
  show (let content : String := ""
    let content := content ++ "# " ++ step.title ++ "\n"
    let content := content ++ "\n"
    let content := content ++ "### Зачем это учить??\n"
    let content := content ++ step.public_text ++ "\n"
    let content := content ++ "\n"
    let content := step.public_photos.foldl (fun c photo =>
      c ++ "![" ++ toString photo.id ++ "](" ++
        assetsRelative (download_image_filename photo.normal photo.id) ++ ")\n")
      content
    let content := content ++ "### Как это учить???\n"
    let content := content ++ step.private_text ++ "\n"
    let content := content ++ "\n"
    let content := step.private_videos.foldl (fun c photo =>
      c ++ "![" ++ toString photo.id ++ "](" ++
        assetsRelative (download_image_filename photo.normal photo.id) ++ ")\n")
      content
    let content := step.private_links.foldl (fun c link =>
      c ++ "[Ссылка: " ++ link.title ++ "](" ++ link.url ++ ")\n") content
    let content := step.private_videos.foldl (fun c video =>
      c ++ "[Видео: " ++ video.description ++ "](" ++ video.path ++ ")\n")
      content
    let content := step.private_documents.foldl (fun c doc =>
      c ++ "[Документ " ++ doc.description ++ "](" ++
        assetsRelative (download_document_filename doc.path doc.id) ++ ")\n")
      content
    let content := step.sections.foldl (fun c sec =>
      let c := c ++ "### " ++ sec.title ++ "\n"
      let c := match sec.content with
        | some txt => c ++ txt ++ "\n"
        | none => c
      let c := sec.photos.foldl (fun c photo =>
        c ++ "![" ++ toString photo.id ++ "](" ++
          assetsRelative (download_image_filename photo.normal photo.id) ++
            ")\n") c
      let c := sec.links.foldl (fun c link =>
        c ++ "[Ссылка: " ++ link.title ++ "](" ++ link.url ++ ")\n") c
      let c := sec.videos.foldl (fun c video =>
        c ++ "[Видео: " ++ video.description ++ "](" ++ video.path ++ ")\n") c
      let c := sec.documents.foldl (fun c doc =>
        c ++ "[Документ " ++ doc.description ++ "](" ++
          assetsRelative (download_document_filename doc.path doc.id) ++
            ")\n") c
      c) content
    content) = _
  simp only []
  rw [himgP, himgV, hlink, hvid, hdoc, hsec]
  simp [String.append_assoc]

/-- The tail following a printed value never starts with a digit. -/
def headNotDigit : List Char → Prop
  | [] => True
  | c :: _ => digit? c = none

/-- `skipWs` drops any all-whitespace prefix. -/
theorem skipWs_append_ws :
    ∀ (ws l : List Char), (∀ c ∈ ws, wsChar c = true) →
      skipWs (ws ++ l) = skipWs l := by
  intro ws
  induction ws with
  | nil => intro l _; rfl
  | cons c rest ih =>
    intro l h
    have hc : wsChar c = true := h c (List.mem_cons_self c rest)
    simp only [List.cons_append, skipWs, hc, if_pos]
    exact ih l (fun d hd => h d (List.mem_cons_of_mem c hd))

/-- Newline-plus-indent is all whitespace. -/
theorem nlIndent_ws (level : Nat) : ∀ c ∈ nlIndent level, wsChar c = true := by
  intro c hc
  cases List.mem_cons.mp hc with
  | inl h => rw [h]; rfl
  | inr h => rw [List.eq_of_mem_replicate h]; rfl

/-- `skipWs` keeps a non-whitespace head. -/
theorem skipWs_cons_not_ws (c : Char) (l : List Char) (h : wsChar c = false) :
    skipWs (c :: l) = c :: l := by
  simp [skipWs, h]

/-- `parseValue` ignores leading whitespace. -/
theorem parseValue_strip_ws (fuel : Nat) (ws l : List Char)
    (h : ∀ c ∈ ws, wsChar c = true) :
    parseValue fuel (ws ++ l) = parseValue fuel l := by
  cases fuel with
  | zero => simp [parseValue]
  | succ f => simp only [parseValue, skipWs_append_ws ws l h]

/-- `parseItems` ignores leading whitespace. -/
theorem parseItems_strip_ws (fuel : Nat) (ws l : List Char)
    (acc : List Json) (h : ∀ c ∈ ws, wsChar c = true) :
    parseItems fuel (ws ++ l) acc = parseItems fuel l acc := by
  cases fuel with
  | zero => simp [parseItems]
  | succ f => simp only [parseItems, parseValue_strip_ws f ws l h]

/-- `parseMembers` ignores leading whitespace. -/
theorem parseMembers_strip_ws (fuel : Nat) (ws l : List Char)
    (acc : List (String × Json)) (h : ∀ c ∈ ws, wsChar c = true) :
    parseMembers fuel (ws ++ l) acc = parseMembers fuel l acc := by
  cases fuel with
  | zero => simp [parseMembers]
  | succ f => simp only [parseMembers, skipWs_append_ws ws l h]

/-- Digit characters decode to their value. -/
theorem digit?_digitChar (d : Nat) (h : d < 10) :
    digit? (digitChar d) = some d := by
  interval_cases d <;> rfl

/-- A number always prints at least one digit. -/
theorem natDigits_ne_nil (n : Nat) : natDigits n ≠ [] := by
  rw [natDigits]
  split <;> simp

/-- Every printed digit character is a digit. -/
theorem natDigits_all_digits (n : Nat) :
    ∀ c ∈ natDigits n, (digit? c).isSome := by
  induction n using Nat.strong_induction_on with
  | _ n ih =>
    rw [natDigits]
    split
    · intro c hc
      rw [List.mem_singleton.mp hc]
      rw [digit?_digitChar n (by omega)]
      rfl
    · intro c hc
      rcases List.mem_append.mp hc with hmem | hmem
      · exact ih (n / 10) (Nat.div_lt_self (by omega) (by omega)) c hmem
      · rw [List.mem_singleton.mp hmem]
        rw [digit?_digitChar (n % 10) (Nat.mod_lt n (by omega))]
        rfl

/-- Consuming a digit run before a non-digit tail accumulates its
decimal value. -/
theorem parseNatAux_digits :
    ∀ (ds rest : List Char) (acc : Nat), (∀ c ∈ ds, (digit? c).isSome) →
      headNotDigit rest →
      parseNatAux (ds ++ rest) acc =
        (ds.foldl (fun a c => a * 10 + (digit? c).getD 0) acc, rest) := by
  intro ds
  induction ds with
  | nil =>
    intro rest acc _ hrest
    cases rest with
    | nil => rfl
    | cons c r =>
      simp only [headNotDigit] at hrest
      simp [parseNatAux, hrest]
  | cons d ds ih =>
    intro rest acc hds hrest
    have hd : (digit? d).isSome := hds d (List.mem_cons_self d ds)
    obtain ⟨v, hv⟩ := Option.isSome_iff_exists.mp hd
    simp only [List.cons_append, parseNatAux, hv, List.foldl_cons,
      List.append_eq]
    rw [ih rest (acc * 10 + v) (fun c hc => hds c (List.mem_cons_of_mem d hc))
      hrest]
    simp [hv]

/-- The digit string of `n` folds back to `n`. -/
theorem natDigits_foldl (n : Nat) :
    ∀ acc : Nat,
      (natDigits n).foldl (fun a c => a * 10 + (digit? c).getD 0) acc =
        acc * 10 ^ (natDigits n).length + n := by
  induction n using Nat.strong_induction_on with
  | _ n ih =>
    intro acc
    rw [natDigits]
    split
    · simp only [List.foldl_cons, List.foldl_nil, List.length_singleton]
      rw [digit?_digitChar n (by omega)]
      simp
    · rw [List.foldl_append, List.length_append,
        ih (n / 10) (Nat.div_lt_self (by omega) (by omega))]
      simp only [List.foldl_cons, List.foldl_nil, List.length_singleton]
      rw [digit?_digitChar (n % 10) (Nat.mod_lt n (by omega))]
      simp only [Option.getD_some]
      rw [pow_succ]
      have hdm : 10 * (n / 10) + n % 10 = n := Nat.div_add_mod n 10
      ring_nf
      omega

/-- The printed integer parses back to itself. -/
theorem parseNum_intRepr (n : Int) (rest : List Char)
    (hrest : headNotDigit rest) :
    parseNum (intRepr n ++ rest) = some (n, rest) := by
  by_cases hneg : n < 0
  · rw [intRepr, if_pos hneg]
    obtain ⟨d, ds, hds⟩ := List.exists_cons_of_ne_nil (natDigits_ne_nil n.natAbs)
    have hd : (digit? d).isSome := by
      have := natDigits_all_digits n.natAbs d
      rw [hds] at this
      exact this (List.mem_cons_self d ds)
    have hmatch := parseNatAux_digits (natDigits n.natAbs) rest 0
      (natDigits_all_digits n.natAbs) hrest
    rw [natDigits_foldl n.natAbs 0] at hmatch
    simp only [Nat.zero_mul, Nat.zero_add] at hmatch
    rw [hds] at hmatch
    simp only [List.cons_append] at hmatch
    rw [hds]
    simp only [List.cons_append, parseNum, hd, if_pos, if_true]
    rw [hmatch]
    simp only [Option.some.injEq, Prod.mk.injEq]
    constructor
    · omega
    · trivial
  · rw [intRepr, if_neg hneg]
    obtain ⟨d, ds, hds⟩ := List.exists_cons_of_ne_nil (natDigits_ne_nil n.toNat)
    have hd : (digit? d).isSome := by
      have := natDigits_all_digits n.toNat d
      rw [hds] at this
      exact this (List.mem_cons_self d ds)
    have hdnotminus : ¬(d = '-') := by
      intro hmm
      rw [hmm] at hd
      simp [digit?] at hd
    have hmatch := parseNatAux_digits (natDigits n.toNat) rest 0
      (natDigits_all_digits n.toNat) hrest
    rw [natDigits_foldl n.toNat 0] at hmatch
    simp only [Nat.zero_mul, Nat.zero_add] at hmatch
    rw [hds] at hmatch
    simp only [List.cons_append] at hmatch
    rw [hds]
    simp only [List.cons_append, parseNum]
    rw [if_neg hdnotminus, if_pos hd, hmatch]
    simp only [Option.some.injEq, Prod.mk.injEq]
    constructor
    · exact Int.toNat_of_nonneg (by omega)
    · trivial

/-- Hex digit characters decode to their value. -/
theorem hexVal?_hexDigitChar (x : Nat) (h : x < 16) :
    hexVal? (hexDigitChar x) = some x := by
  interval_cases x <;> rfl

/-- A string escaped as by `json.dumps(..., ensure_ascii=False)`
parses back to the original characters. -/
theorem parseStringBody_encode :
    ∀ (s rest : List Char),
      parseStringBody ((s.map escapeChar).flatten ++ '"' :: rest) =
        some (s, rest) := by
  intro s
  induction s with
  | nil =>
    intro rest
    unfold parseStringBody
    simp
  | cons c cs ih =>
    intro rest
    simp only [List.map_cons, List.flatten_cons, List.append_assoc]
    by_cases h1 : c = '"'
    · subst h1
      simp only [escapeChar, escSeq, List.cons_append]
      unfold parseStringBody
      simp [shortEscape?, ih rest]
    · by_cases h2 : c = '\\'
      · subst h2
        simp only [escapeChar, escSeq, List.cons_append]
        unfold parseStringBody
        simp [shortEscape?, ih rest]
      · by_cases h3 : c = '\x08'
        · subst h3
          simp only [escapeChar, escSeq, List.cons_append]
          unfold parseStringBody
          simp [shortEscape?, ih rest]
        · by_cases h4 : c = '\x09'
          · subst h4
            simp only [escapeChar, escSeq, List.cons_append]
            unfold parseStringBody
            simp [shortEscape?, ih rest]
          · by_cases h5 : c = '\x0a'
            · subst h5
              simp only [escapeChar, escSeq, List.cons_append]
              unfold parseStringBody
              simp [shortEscape?, ih rest]
            · by_cases h6 : c = '\x0c'
              · subst h6
                simp only [escapeChar, escSeq, List.cons_append]
                unfold parseStringBody
                simp [shortEscape?, ih rest]
              · by_cases h7 : c = '\x0d'
                · subst h7
                  simp only [escapeChar, escSeq, List.cons_append]
                  unfold parseStringBody
                  simp [shortEscape?, ih rest]
                · by_cases h8 : c.toNat < 0x20
                  · have hdiv : c.toNat / 16 < 16 := by omega
                    have hmod : c.toNat % 16 < 16 := Nat.mod_lt _ (by omega)
                    have hcode :
                        ((0 * 16 + 0) * 16 + c.toNat / 16) * 16 + c.toNat % 16
                          = c.toNat := by omega
                    have h55 :
                        ((0 * 16 + 0) * 16 + c.toNat / 16) * 16 + c.toNat % 16
                          < 55296 := by omega
                    have hv0 : hexVal? '0' = some 0 := rfl
                    simp only [escapeChar, if_neg h1, if_neg h2, if_neg h3,
                      if_neg h4, if_neg h5, if_neg h6, if_neg h7, if_pos h8,
                      List.cons_append]
                    unfold parseStringBody
                    simp [hexVal?_hexDigitChar _ hdiv,
                      hexVal?_hexDigitChar _ hmod, hv0, h55, hcode, ih rest]
                    have hc2 : c.toNat / 16 * 16 + c.toNat % 16 = c.toNat := by
                      omega
                    rw [hc2]
                    exact ⟨by omega, Char.ofNat_toNat c⟩
                  · simp only [escapeChar, if_neg h1, if_neg h2, if_neg h3,
                      if_neg h4, if_neg h5, if_neg h6, if_neg h7, if_neg h8,
                      List.singleton_append]
                    unfold parseStringBody
                    simp only [if_neg h1, if_neg h2, ih rest]

/-- `parseValue` on a non-whitespace head dispatches to
`parseValueCore`. -/
theorem parseValue_cons (f : Nat) (c : Char) (l : List Char)
    (h : wsChar c = false) :
    parseValue (f + 1) (c :: l) = parseValueCore f c l := by
  simp only [parseValue, skipWs_cons_not_ws c l h]

/-- Every value needs at least one unit of fuel. -/
theorem fuelVal_pos (w : Json) : 1 ≤ fuelVal w := by
  cases w with
  | null => simp [fuelVal]
  | bool b => simp [fuelVal]
  | num n => simp [fuelVal]
  | str s => simp [fuelVal]
  | arr xs =>
    cases xs with
    | nil => simp [fuelVal]
    | cons x xs => simp [fuelVal]; try omega
  | obj kvs =>
    cases kvs with
    | nil => simp [fuelVal]
    | cons kv kvs =>
      obtain ⟨k, v⟩ := kv
      simp [fuelVal]
      try omega

/-- Item lists need at least one unit of fuel. -/
theorem fuelItems_pos (x : Json) (xs : List Json) : 1 ≤ fuelItems x xs := by
  cases xs with
  | nil => simp [fuelItems]; try omega
  | cons y ys => simp [fuelItems]; try omega

/-- Member lists need at least one unit of fuel. -/
theorem fuelMembers_pos (v : Json) (ms : List (String × Json)) :
    1 ≤ fuelMembers v ms := by
  cases ms with
  | nil => simp [fuelMembers]; try omega
  | cons m ms =>
    obtain ⟨k2, v2⟩ := m
    simp [fuelMembers]
    try omega

/-- A digit character is none of the parser's structural characters. -/
theorem digit_char_facts (d : Char) (h : (digit? d).isSome) :
    wsChar d = false ∧ d ≠ ']' ∧ d ≠ 'n' ∧ d ≠ 't' ∧ d ≠ 'f' ∧
      d ≠ '"' ∧ d ≠ '[' ∧ d ≠ '\x7b' ∧ d ≠ '\x7d' := by
  have hb : 48 ≤ d.toNat ∧ d.toNat ≤ 57 := by
    unfold digit? at h
    by_cases hc : 48 ≤ d.toNat ∧ d.toNat ≤ 57
    · exact hc
    · rw [if_neg hc] at h
      simp at h
  refine ⟨?_, ?_, ?_, ?_, ?_, ?_, ?_, ?_, ?_⟩
  · unfold wsChar
    by_contra hw
    rw [Bool.not_eq_false] at hw
    simp only [Bool.or_eq_true, decide_eq_true_eq] at hw
    rcases hw with ((h1 | h1) | h1) | h1 <;>
      (subst h1; exact absurd hb (by decide))
  all_goals (intro he; subst he; exact absurd hb (by decide))

/-- The printed form of an integer starts with a character that is not
whitespace and not any keyword or bracket character. -/
theorem intRepr_head (n : Int) :
    ∃ c0 l0, intRepr n = c0 :: l0 ∧ wsChar c0 = false ∧ ¬c0 = 'n' ∧
      ¬c0 = 't' ∧ ¬c0 = 'f' ∧ ¬c0 = '"' ∧ ¬c0 = '[' ∧ ¬c0 = '\x7b' ∧
      c0 ≠ ']' ∧ c0 ≠ '\x7d' := by
  by_cases hneg : n < 0
  · refine ⟨'-', natDigits n.natAbs, ?_, by decide, by decide, by decide,
      by decide, by decide, by decide, by decide, by decide, by decide⟩
    rw [intRepr, if_pos hneg]
  · obtain ⟨d, ds, hds⟩ :=
      List.exists_cons_of_ne_nil (natDigits_ne_nil n.toNat)
    have hd : (digit? d).isSome := by
      have := natDigits_all_digits n.toNat d
      rw [hds] at this
      exact this (List.mem_cons_self d ds)
    obtain ⟨hws, hrb, hn, ht, hf, hq, hlb, hob, hcb⟩ := digit_char_facts d hd
    refine ⟨d, ds, ?_, hws, hn, ht, hf, hq, hlb, hob, hrb, hcb⟩
    rw [intRepr, if_neg hneg, hds]

/-- The first character printed for any value is not whitespace and
not a closing bracket or brace. -/
theorem dumpVal_head (level : Nat) (w : Json) :
    ∃ c l, dumpVal level w = c :: l ∧ wsChar c = false ∧ c ≠ ']' ∧
      c ≠ '\x7d' := by
  cases w with
  | null =>
    refine ⟨'n', ['u', 'l', 'l'], ?_, by decide, by decide, by decide⟩
    unfold dumpVal
    rfl
  | bool b =>
    cases b with
    | true =>
      refine ⟨'t', ['r', 'u', 'e'], ?_, by decide, by decide, by decide⟩
      unfold dumpVal
      rfl
    | false =>
      refine ⟨'f', ['a', 'l', 's', 'e'], ?_, by decide, by decide, by decide⟩
      unfold dumpVal
      rfl
  | num n =>
    obtain ⟨c0, l0, hrepr, hws, _, _, _, _, _, _, hrb, hcb⟩ := intRepr_head n
    exact ⟨c0, l0, by unfold dumpVal; exact hrepr, hws, hrb, hcb⟩
  | str s =>
    refine ⟨'"', (s.data.map escapeChar).flatten ++ ['"'], ?_, by decide,
      by decide, by decide⟩
    unfold dumpVal
    rfl
  | arr xs =>
    cases xs with
    | nil =>
      refine ⟨'[', [']'], ?_, by decide, by decide, by decide⟩
      unfold dumpVal
      rfl
    | cons x xs =>
      refine ⟨'[', (nlIndent (level + 1) ++ dumpItems (level + 1) x xs) ++
        nlIndent level ++ [']'], ?_, by decide, by decide, by decide⟩
      unfold dumpVal
      simp [List.cons_append]
  | obj kvs =>
    cases kvs with
    | nil =>
      refine ⟨'\x7b', ['\x7d'], ?_, by decide, by decide, by decide⟩
      unfold dumpVal
      rfl
    | cons kv kvs =>
      obtain ⟨k, v⟩ := kv
      refine ⟨'\x7b', (nlIndent (level + 1) ++ dumpMembers (level + 1) k v kvs)
        ++ nlIndent level ++ ['\x7d'], ?_, by decide, by decide, by decide⟩
      unfold dumpVal
      simp [List.cons_append]

/-- Printed item lists start like their first value. -/
theorem dumpItems_head (level : Nat) (x : Json) (xs : List Json) :
    ∃ c t, dumpItems level x xs = c :: t ∧ wsChar c = false ∧ c ≠ ']' ∧
      c ≠ '\x7d' := by
  obtain ⟨c, l, hval, hws, hrb, hcb⟩ := dumpVal_head level x
  cases xs with
  | nil =>
    exact ⟨c, l, by rw [dumpItems.eq_def]; exact hval, hws, hrb, hcb⟩
  | cons y ys =>
    refine ⟨c, (l ++ (',' :: nlIndent level)) ++ dumpItems level y ys, ?_,
      hws, hrb, hcb⟩
    rw [dumpItems.eq_def]
    simp only [hval]
    simp [List.cons_append]

/-- Printed member lists start with the quote of the first key. -/
theorem dumpMembers_head (level : Nat) (k : String) (v : Json)
    (ms : List (String × Json)) :
    ∃ t, dumpMembers level k v ms = '"' :: t := by
  cases ms with
  | nil =>
    refine ⟨(k.data.map escapeChar).flatten ++
      ('"' :: ':' :: ' ' :: dumpVal level v), ?_⟩
    rw [dumpMembers.eq_def]
    simp [encodeString, List.cons_append, List.append_assoc]
  | cons m ms2 =>
    obtain ⟨k2, v2⟩ := m
    refine ⟨(k.data.map escapeChar).flatten ++
      ('"' :: ':' :: ' ' :: (dumpVal level v ++
        ((',' :: nlIndent level) ++ dumpMembers level k2 v2 ms2))), ?_⟩
    rw [dumpMembers.eq_def]
    simp [encodeString, List.cons_append, List.append_assoc]

/-- The text following a printed element in an emitted document never
starts with a digit. -/
theorem headNotDigit_cons (c : Char) (X : List Char) (h : digit? c = none) :
    headNotDigit (c :: X) := h

/-- Indentation followed by anything starts with a newline. -/
theorem headNotDigit_nlIndent (lvl : Nat) (X : List Char) :
    headNotDigit (nlIndent lvl ++ X) := by
  show digit? '\n' = none
  rfl

/-- Round trip of the emitter and the parser: any printed value
parses back to itself, for every sufficient fuel, emission level and
non-digit-leading remainder; likewise for item and member lists
followed by their closing bracket. -/
theorem parse_print (fuel : Nat) :
    (∀ w level rest, fuelVal w ≤ fuel → headNotDigit rest →
      parseValue fuel (dumpVal level w ++ rest) = some (w, rest)) ∧
    (∀ x xs level lvl2 rest acc, fuelItems x xs ≤ fuel → headNotDigit rest →
      parseItems fuel
        (dumpItems level x xs ++ (nlIndent lvl2 ++ ']' :: rest)) acc =
        some (Json.arr (acc ++ x :: xs), rest)) ∧
    (∀ k v ms level lvl2 rest acc, fuelMembers v ms ≤ fuel →
      headNotDigit rest →
      parseMembers fuel
        (dumpMembers level k v ms ++ (nlIndent lvl2 ++ '\x7d' :: rest)) acc =
        some (Json.obj (acc ++ (k, v) :: ms), rest)) := by
  induction fuel with
  | zero =>
    refine ⟨?_, ?_, ?_⟩
    · intro w level rest hfuel _
      have := fuelVal_pos w
      omega
    · intro x xs level lvl2 rest acc hfuel _
      have := fuelItems_pos x xs
      omega
    · intro k v ms level lvl2 rest acc hfuel _
      have := fuelMembers_pos v ms
      omega
  | succ f ih =>
    obtain ⟨ihV, ihI, ihM⟩ := ih
    refine ⟨?_, ?_, ?_⟩
    · intro w level rest hfuel hrest
      cases w with
      | null =>
        have hd : dumpVal level Json.null = 'n' :: ['u', 'l', 'l'] := by
          unfold dumpVal
          rfl
        rw [hd]
        simp only [List.cons_append, List.nil_append]
        rw [parseValue_cons f 'n' _ (by decide)]
        unfold parseValueCore
        simp
      | bool b =>
        cases b with
        | true =>
          have hd : dumpVal level (Json.bool true) = 't' :: ['r', 'u', 'e'] := by
            unfold dumpVal
            rfl
          rw [hd]
          simp only [List.cons_append, List.nil_append]
          rw [parseValue_cons f 't' _ (by decide)]
          unfold parseValueCore
          simp
        | false =>
          have hd : dumpVal level (Json.bool false)
              = 'f' :: ['a', 'l', 's', 'e'] := by
            unfold dumpVal
            rfl
          rw [hd]
          simp only [List.cons_append, List.nil_append]
          rw [parseValue_cons f 'f' _ (by decide)]
          unfold parseValueCore
          simp
      | num n =>
        obtain ⟨c0, l0, hrepr, hws, hn, ht2, hf2, hq, hlb, hob, _, _⟩ :=
          intRepr_head n
        have hd : dumpVal level (Json.num n) = intRepr n := by
          unfold dumpVal
          rfl
        rw [hd, hrepr]
        simp only [List.cons_append]
        rw [parseValue_cons f c0 _ hws]
        unfold parseValueCore
        rw [if_neg hn, if_neg ht2, if_neg hf2, if_neg hq, if_neg hlb,
          if_neg hob]
        have hnum := parseNum_intRepr n rest hrest
        rw [hrepr] at hnum
        simp only [List.cons_append] at hnum
        rw [hnum]
      | str s =>
        have hd : dumpVal level (Json.str s)
            = '"' :: ((s.data.map escapeChar).flatten ++ ['"']) := by
          unfold dumpVal encodeString
          rfl
        rw [hd]
        simp only [List.cons_append, List.append_assoc, List.singleton_append,
          List.nil_append]
        rw [parseValue_cons f '"' _ (by decide)]
        unfold parseValueCore
        rw [if_neg (by decide), if_neg (by decide), if_neg (by decide),
          if_pos rfl]
        rw [parseStringBody_encode s.data rest]
      | arr xs =>
        cases xs with
        | nil =>
          have hd : dumpVal level (Json.arr []) = '[' :: [']'] := by
            unfold dumpVal
            rfl
          rw [hd]
          simp only [List.cons_append, List.nil_append]
          rw [parseValue_cons f '[' _ (by decide)]
          unfold parseValueCore
          rw [if_neg (by decide), if_neg (by decide), if_neg (by decide),
            if_neg (by decide), if_pos rfl]
          rw [skipWs_cons_not_ws _ _ (by decide)]
          simp
        | cons x xs =>
          have hd : dumpVal level (Json.arr (x :: xs))
              = '[' :: ((nlIndent (level + 1) ++ dumpItems (level + 1) x xs) ++
                nlIndent level ++ [']']) := by
            unfold dumpVal
            simp [List.cons_append]
          rw [hd]
          simp only [List.cons_append, List.append_assoc, List.singleton_append,
            List.nil_append]
          rw [parseValue_cons f '[' _ (by decide)]
          unfold parseValueCore
          rw [if_neg (by decide), if_neg (by decide), if_neg (by decide),
            if_neg (by decide), if_pos rfl]
          obtain ⟨ch, tl, hitems, hchws, hchrb, _⟩ :=
            dumpItems_head (level + 1) x xs
          have hskip : skipWs (nlIndent (level + 1) ++
              (dumpItems (level + 1) x xs ++
                (nlIndent level ++ (']' :: rest)))) =
              ch :: (tl ++ (nlIndent level ++ (']' :: rest))) := by
            rw [skipWs_append_ws _ _ (nlIndent_ws (level + 1)), hitems]
            simp only [List.cons_append]
            rw [skipWs_cons_not_ws _ _ hchws]
          simp only [hskip, List.head?_cons]
          rw [if_neg (fun hcontra => hchrb (Option.some.inj hcontra))]
          rw [parseItems_strip_ws f _ _ [] (nlIndent_ws (level + 1))]
          have hfuel2 : fuelItems x xs ≤ f := by
            unfold fuelVal at hfuel
            omega
          rw [ihI x xs (level + 1) level rest [] hfuel2 hrest]
          simp
      | obj kvs =>
        cases kvs with
        | nil =>
          have hd : dumpVal level (Json.obj []) = '\x7b' :: ['\x7d'] := by
            unfold dumpVal
            rfl
          rw [hd]
          simp only [List.cons_append, List.nil_append]
          rw [parseValue_cons f '\x7b' _ (by decide)]
          unfold parseValueCore
          rw [if_neg (by decide), if_neg (by decide), if_neg (by decide),
            if_neg (by decide), if_neg (by decide), if_pos rfl]
          rw [skipWs_cons_not_ws _ _ (by decide)]
          simp
        | cons kv kvs =>
          obtain ⟨k, v⟩ := kv
          have hd : dumpVal level (Json.obj ((k, v) :: kvs))
              = '\x7b' :: ((nlIndent (level + 1) ++
                dumpMembers (level + 1) k v kvs) ++
                nlIndent level ++ ['\x7d']) := by
            unfold dumpVal
            simp [List.cons_append]
          rw [hd]
          simp only [List.cons_append, List.append_assoc, List.singleton_append,
            List.nil_append]
          rw [parseValue_cons f '\x7b' _ (by decide)]
          unfold parseValueCore
          rw [if_neg (by decide), if_neg (by decide), if_neg (by decide),
            if_neg (by decide), if_neg (by decide), if_pos rfl]
          obtain ⟨tl, hmembers⟩ := dumpMembers_head (level + 1) k v kvs
          have hskip : skipWs (nlIndent (level + 1) ++
              (dumpMembers (level + 1) k v kvs ++
                (nlIndent level ++ ('\x7d' :: rest)))) =
              '"' :: (tl ++ (nlIndent level ++ ('\x7d' :: rest))) := by
            rw [skipWs_append_ws _ _ (nlIndent_ws (level + 1)), hmembers]
            simp only [List.cons_append]
            rw [skipWs_cons_not_ws _ _ (by decide)]
          simp only [hskip, List.head?_cons]
          rw [if_neg (by decide)]
          rw [parseMembers_strip_ws f _ _ [] (nlIndent_ws (level + 1))]
          have hfuel2 : fuelMembers v kvs ≤ f := by
            unfold fuelVal at hfuel
            omega
          rw [ihM k v kvs (level + 1) level rest [] hfuel2 hrest]
          simp
    · intro x xs level lvl2 rest acc hfuel hrest
      cases xs with
      | nil =>
        have hd : dumpItems level x [] = dumpVal level x := by
          unfold dumpItems
          rfl
        rw [hd]
        unfold parseItems
        have hfuel2 : fuelVal x ≤ f := by
          unfold fuelItems at hfuel
          omega
        rw [ihV x level (nlIndent lvl2 ++ ']' :: rest) hfuel2
          (headNotDigit_nlIndent lvl2 _)]
        have hskip : skipWs (nlIndent lvl2 ++ ']' :: rest) = ']' :: rest := by
          rw [skipWs_append_ws _ _ (nlIndent_ws lvl2),
            skipWs_cons_not_ws _ _ (by decide)]
        show (let r := skipWs (nlIndent lvl2 ++ ']' :: rest)
          if r.head? = some ',' then parseItems f r.tail (acc ++ [x])
          else if r.head? = some ']' then
            some (Json.arr (acc ++ [x]), r.tail)
          else none) = some (Json.arr (acc ++ x :: []), rest)
        simp only [hskip, List.head?_cons, if_true]
        simp
      | cons y ys =>
        have hd : dumpItems level x (y :: ys) = dumpVal level x ++
            ((',' :: nlIndent level) ++ dumpItems level y ys) := by
          rw [dumpItems.eq_def]
          simp [List.cons_append, List.append_assoc]
        rw [hd]
        simp only [List.append_assoc, List.cons_append]
        unfold parseItems
        have hfuel2 : fuelVal x ≤ f := by
          unfold fuelItems at hfuel
          omega
        have hfuel3 : fuelItems y ys ≤ f := by
          unfold fuelItems at hfuel
          omega
        rw [ihV x level _ hfuel2 (headNotDigit_cons ',' _ (by rfl))]
        have hskip : skipWs (',' :: (nlIndent level ++ (dumpItems level y ys ++
            (nlIndent lvl2 ++ ']' :: rest)))) =
            ',' :: (nlIndent level ++ (dumpItems level y ys ++
              (nlIndent lvl2 ++ ']' :: rest))) :=
          skipWs_cons_not_ws _ _ (by decide)
        show (let r := skipWs (',' :: (nlIndent level ++
            (dumpItems level y ys ++ (nlIndent lvl2 ++ ']' :: rest))))
          if r.head? = some ',' then parseItems f r.tail (acc ++ [x])
          else if r.head? = some ']' then
            some (Json.arr (acc ++ [x]), r.tail)
          else none) = some (Json.arr (acc ++ x :: y :: ys), rest)
        simp only [hskip, List.head?_cons, if_true]
        show parseItems f
          (nlIndent level ++ (dumpItems level y ys ++
            (nlIndent lvl2 ++ ']' :: rest))) (acc ++ [x]) = _
        rw [parseItems_strip_ws f _ _ _ (nlIndent_ws level)]
        rw [ihI y ys level lvl2 rest (acc ++ [x]) hfuel3 hrest]
        simp
    · intro k v ms level lvl2 rest acc hfuel hrest
      cases ms with
      | nil =>
        have hd : dumpMembers level k v [] = '"' ::
            ((k.data.map escapeChar).flatten ++
              ('"' :: ':' :: ' ' :: dumpVal level v)) := by
          rw [dumpMembers.eq_def]
          simp [encodeString, List.cons_append, List.append_assoc]
        rw [hd]
        simp only [List.cons_append, List.append_assoc]
        unfold parseMembers
        rw [skipWs_cons_not_ws _ _ (by decide)]
        simp only [List.head?_cons, if_true, List.tail_cons]
        rw [parseStringBody_encode k.data _]
        show (if (skipWs (':' :: ' ' :: (dumpVal level v ++
            (nlIndent lvl2 ++ '\x7d' :: rest)))).head? = some ':' then
            match parseValue f (skipWs (':' :: ' ' :: (dumpVal level v ++
              (nlIndent lvl2 ++ '\x7d' :: rest)))).tail with
            | some (v2, rest4) =>
              if (skipWs rest4).head? = some ',' then
                parseMembers f (skipWs rest4).tail
                  (acc ++ [(String.mk k.data, v2)])
              else if (skipWs rest4).head? = some '\x7d' then
                some (Json.obj (acc ++ [(String.mk k.data, v2)]),
                  (skipWs rest4).tail)
              else none
            | none => none
          else none) = some (Json.obj (acc ++ [(k, v)]), rest)
        have hskip1 : skipWs (':' :: ' ' :: (dumpVal level v ++
            (nlIndent lvl2 ++ '\x7d' :: rest))) = ':' :: ' ' ::
            (dumpVal level v ++ (nlIndent lvl2 ++ '\x7d' :: rest)) :=
          skipWs_cons_not_ws _ _ (by decide)
        simp only [hskip1, List.head?_cons, if_true, List.tail_cons]
        rw [show (' ' :: (dumpVal level v ++
            (nlIndent lvl2 ++ '\x7d' :: rest)))
            = [' '] ++ (dumpVal level v ++ (nlIndent lvl2 ++ '\x7d' :: rest))
          from rfl]
        rw [parseValue_strip_ws f [' '] _
          (fun c hc => by rw [List.mem_singleton.mp hc]; rfl)]
        have hfuel2 : fuelVal v ≤ f := by
          unfold fuelMembers at hfuel
          omega
        rw [ihV v level _ hfuel2 (headNotDigit_nlIndent lvl2 _)]
        show (if (skipWs (nlIndent lvl2 ++ '\x7d' :: rest)).head?
              = some ',' then
            parseMembers f (skipWs (nlIndent lvl2 ++ '\x7d' :: rest)).tail
              (acc ++ [(String.mk k.data, v)])
          else if (skipWs (nlIndent lvl2 ++ '\x7d' :: rest)).head?
              = some '\x7d' then
            some (Json.obj (acc ++ [(String.mk k.data, v)]),
              (skipWs (nlIndent lvl2 ++ '\x7d' :: rest)).tail)
          else none) = some (Json.obj (acc ++ [(k, v)]), rest)
        have hskip2 : skipWs (nlIndent lvl2 ++ '\x7d' :: rest)
            = '\x7d' :: rest := by
          rw [skipWs_append_ws _ _ (nlIndent_ws lvl2),
            skipWs_cons_not_ws _ _ (by decide)]
        have hk : String.mk k.data = k := rfl
        simp only [hskip2, List.head?_cons, List.tail_cons, hk]
        simp
      | cons m ms2 =>
        obtain ⟨k2, v2⟩ := m
        have hd : dumpMembers level k v ((k2, v2) :: ms2) = '"' ::
            ((k.data.map escapeChar).flatten ++
              ('"' :: ':' :: ' ' :: (dumpVal level v ++
                ((',' :: nlIndent level) ++
                  dumpMembers level k2 v2 ms2)))) := by
          rw [dumpMembers.eq_def]
          simp [encodeString, List.cons_append, List.append_assoc]
        rw [hd]
        simp only [List.cons_append, List.append_assoc]
        unfold parseMembers
        rw [skipWs_cons_not_ws _ _ (by decide)]
        simp only [List.head?_cons, if_true, List.tail_cons]
        rw [parseStringBody_encode k.data _]
        show (if (skipWs (':' :: ' ' :: (dumpVal level v ++
            (',' :: (nlIndent level ++ (dumpMembers level k2 v2 ms2 ++
              (nlIndent lvl2 ++ '\x7d' :: rest))))))).head? = some ':' then
            match parseValue f (skipWs (':' :: ' ' :: (dumpVal level v ++
              (',' :: (nlIndent level ++ (dumpMembers level k2 v2 ms2 ++
                (nlIndent lvl2 ++ '\x7d' :: rest))))))).tail with
            | some (v3, rest4) =>
              if (skipWs rest4).head? = some ',' then
                parseMembers f (skipWs rest4).tail
                  (acc ++ [(String.mk k.data, v3)])
              else if (skipWs rest4).head? = some '\x7d' then
                some (Json.obj (acc ++ [(String.mk k.data, v3)]),
                  (skipWs rest4).tail)
              else none
            | none => none
          else none) =
            some (Json.obj (acc ++ (k, v) :: (k2, v2) :: ms2), rest)
        have hskip1 : skipWs (':' :: ' ' :: (dumpVal level v ++
            (',' :: (nlIndent level ++ (dumpMembers level k2 v2 ms2 ++
              (nlIndent lvl2 ++ '\x7d' :: rest)))))) = ':' :: ' ' ::
            (dumpVal level v ++ (',' :: (nlIndent level ++
              (dumpMembers level k2 v2 ms2 ++
                (nlIndent lvl2 ++ '\x7d' :: rest))))) :=
          skipWs_cons_not_ws _ _ (by decide)
        simp only [hskip1, List.head?_cons, if_true, List.tail_cons]
        rw [show (' ' :: (dumpVal level v ++ (',' :: (nlIndent level ++
            (dumpMembers level k2 v2 ms2 ++
              (nlIndent lvl2 ++ '\x7d' :: rest))))))
            = [' '] ++ (dumpVal level v ++ (',' :: (nlIndent level ++
              (dumpMembers level k2 v2 ms2 ++
                (nlIndent lvl2 ++ '\x7d' :: rest)))))
          from rfl]
        rw [parseValue_strip_ws f [' '] _
          (fun c hc => by rw [List.mem_singleton.mp hc]; rfl)]
        have hfuel2 : fuelVal v ≤ f := by
          unfold fuelMembers at hfuel
          omega
        have hfuel3 : fuelMembers v2 ms2 ≤ f := by
          unfold fuelMembers at hfuel
          omega
        rw [ihV v level _ hfuel2 (headNotDigit_cons ',' _ (by rfl))]
        show (if (skipWs (',' :: (nlIndent level ++
              (dumpMembers level k2 v2 ms2 ++
                (nlIndent lvl2 ++ '\x7d' :: rest))))).head? = some ',' then
            parseMembers f (skipWs (',' :: (nlIndent level ++
              (dumpMembers level k2 v2 ms2 ++
                (nlIndent lvl2 ++ '\x7d' :: rest))))).tail
              (acc ++ [(String.mk k.data, v)])
          else if (skipWs (',' :: (nlIndent level ++
              (dumpMembers level k2 v2 ms2 ++
                (nlIndent lvl2 ++ '\x7d' :: rest))))).head?
              = some '\x7d' then
            some (Json.obj (acc ++ [(String.mk k.data, v)]),
              (skipWs (',' :: (nlIndent level ++
                (dumpMembers level k2 v2 ms2 ++
                  (nlIndent lvl2 ++ '\x7d' :: rest))))).tail)
          else none) =
            some (Json.obj (acc ++ (k, v) :: (k2, v2) :: ms2), rest)
        have hskip2 : skipWs (',' :: (nlIndent level ++
            (dumpMembers level k2 v2 ms2 ++
              (nlIndent lvl2 ++ '\x7d' :: rest)))) =
            ',' :: (nlIndent level ++ (dumpMembers level k2 v2 ms2 ++
              (nlIndent lvl2 ++ '\x7d' :: rest))) :=
          skipWs_cons_not_ws _ _ (by decide)
        simp only [hskip2, List.head?_cons, if_true, List.tail_cons]
        rw [parseMembers_strip_ws f _ _ _ (nlIndent_ws level)]
        rw [ihM k2 v2 ms2 level lvl2 rest (acc ++ [(String.mk k.data, v)])
          hfuel3 hrest]
        have hk : String.mk k.data = k := rfl
        rw [hk]
        simp

/-- Every JSON value has positive size. -/
theorem json_sizeOf_pos (w : Json) : 1 ≤ sizeOf w := by
  cases w <;> simp

/-- The fuel a value needs is bounded by its printed length, so the
fuel `loads` allots always suffices. -/
theorem fuel_le_len (N : Nat) :
    (∀ w level, sizeOf w ≤ N → fuelVal w ≤ (dumpVal level w).length) ∧
    (∀ x xs level, 1 + sizeOf x + sizeOf xs ≤ N →
      fuelItems x xs ≤ (dumpItems level x xs).length + 1) ∧
    (∀ k v ms level, 1 + sizeOf v + sizeOf ms ≤ N →
      fuelMembers v ms ≤ (dumpMembers level k v ms).length + 1) := by
  induction N with
  | zero =>
    refine ⟨?_, ?_, ?_⟩
    · intro w level hsz
      have := json_sizeOf_pos w
      omega
    · intro x xs level hsz
      omega
    · intro k v ms level hsz
      omega
  | succ n ihN =>
    obtain ⟨ihv, ihi, ihm⟩ := ihN
    have hnl : ∀ l : Nat, (nlIndent l).length = 1 + 4 * l := by
      intro l
      simp [nlIndent]
      omega
    refine ⟨?_, ?_, ?_⟩
    · intro w level hsz
      cases w with
      | null =>
        rw [show dumpVal level Json.null = ['n', 'u', 'l', 'l'] from by
          unfold dumpVal; rfl]
        simp [fuelVal]
      | bool b =>
        cases b with
        | true =>
          rw [show dumpVal level (Json.bool true) = ['t', 'r', 'u', 'e'] from
            by unfold dumpVal; rfl]
          simp [fuelVal]
        | false =>
          rw [show dumpVal level (Json.bool false)
            = ['f', 'a', 'l', 's', 'e'] from by unfold dumpVal; rfl]
          simp [fuelVal]
      | num m =>
        rw [show dumpVal level (Json.num m) = intRepr m from by
          unfold dumpVal; rfl]
        obtain ⟨c0, l0, hrepr, _⟩ := intRepr_head m
        rw [hrepr]
        simp [fuelVal]
      | str s =>
        rw [show dumpVal level (Json.str s) = encodeString s from by
          unfold dumpVal; rfl]
        unfold encodeString
        simp [fuelVal]
      | arr xs =>
        cases xs with
        | nil =>
          rw [show dumpVal level (Json.arr []) = ['[', ']'] from by
            unfold dumpVal; rfl]
          simp [fuelVal]
        | cons x xs =>
          have hlen : dumpVal level (Json.arr (x :: xs)) =
              '[' :: ((nlIndent (level + 1) ++ dumpItems (level + 1) x xs) ++
                nlIndent level ++ [']']) := by
            unfold dumpVal
            simp [List.cons_append]
          rw [hlen]
          have hszx : 1 + sizeOf x + sizeOf xs ≤ n := by
            simp at hsz
            omega
          have hrec := ihi x xs (level + 1) hszx
          have hfv : fuelVal (Json.arr (x :: xs)) = 1 + fuelItems x xs := by
            unfold fuelVal
            rfl
          rw [hfv]
          simp only [List.length_cons, List.length_append,
            List.length_singleton, hnl]
          omega
      | obj kvs =>
        cases kvs with
        | nil =>
          rw [show dumpVal level (Json.obj []) = ['\x7b', '\x7d'] from by
            unfold dumpVal; rfl]
          simp [fuelVal]
        | cons kv kvs =>
          obtain ⟨k, v⟩ := kv
          have hlen : dumpVal level (Json.obj ((k, v) :: kvs)) =
              '\x7b' :: ((nlIndent (level + 1) ++
                dumpMembers (level + 1) k v kvs) ++
                nlIndent level ++ ['\x7d']) := by
            unfold dumpVal
            simp [List.cons_append]
          rw [hlen]
          have hszv : 1 + sizeOf v + sizeOf kvs ≤ n := by
            simp at hsz
            omega
          have hrec := ihm k v kvs (level + 1) hszv
          have hfv : fuelVal (Json.obj ((k, v) :: kvs))
              = 1 + fuelMembers v kvs := by
            unfold fuelVal
            rfl
          rw [hfv]
          simp only [List.length_cons, List.length_append,
            List.length_singleton, hnl]
          omega
    · intro x xs level hsz
      cases xs with
      | nil =>
        rw [show dumpItems level x [] = dumpVal level x from by
          rw [dumpItems.eq_def]]
        have hszx : sizeOf x ≤ n := by
          simp at hsz
          omega
        have hrec := ihv x level hszx
        unfold fuelItems
        omega
      | cons y ys =>
        have hlen : dumpItems level x (y :: ys) = dumpVal level x ++
            ((',' :: nlIndent level) ++ dumpItems level y ys) := by
          rw [dumpItems.eq_def]
          simp [List.cons_append, List.append_assoc]
        rw [hlen]
        have hx1 := json_sizeOf_pos x
        have hy1 := json_sizeOf_pos y
        have hszx : sizeOf x ≤ n := by
          simp at hsz
          omega
        have hszy : 1 + sizeOf y + sizeOf ys ≤ n := by
          simp at hsz
          omega
        have hrec1 := ihv x level hszx
        have hrec2 := ihi y ys level hszy
        have hfi : fuelItems x (y :: ys) = 1 + fuelVal x + fuelItems y ys := by
          rw [fuelItems.eq_def]
        rw [hfi]
        simp only [List.length_append, List.length_cons, hnl]
        omega
    · intro k v ms level hsz
      cases ms with
      | nil =>
        have hlen : dumpMembers level k v [] =
            encodeString k ++ ':' :: ' ' :: dumpVal level v := by
          rw [dumpMembers.eq_def]
        rw [hlen]
        have hszv : sizeOf v ≤ n := by
          simp at hsz
          omega
        have hrec := ihv v level hszv
        unfold fuelMembers
        simp only [List.length_append, List.length_cons]
        omega
      | cons m ms2 =>
        obtain ⟨k2, v2⟩ := m
        have hlen : dumpMembers level k v ((k2, v2) :: ms2) =
            encodeString k ++ ':' :: ' ' :: dumpVal level v ++
              ',' :: nlIndent level ++ dumpMembers level k2 v2 ms2 := by
          rw [dumpMembers.eq_def]
        rw [hlen]
        have hv1 := json_sizeOf_pos v
        have hszv : sizeOf v ≤ n := by
          simp at hsz
          omega
        have hszm : 1 + sizeOf v2 + sizeOf ms2 ≤ n := by
          simp at hsz
          omega
        have hrec1 := ihv v level hszv
        have hrec2 := ihm k2 v2 ms2 level hszm
        have hfm : fuelMembers v ((k2, v2) :: ms2)
            = 1 + fuelVal v + fuelMembers v2 ms2 := by
          rw [fuelMembers.eq_def]
        rw [hfm]
        simp only [List.length_append, List.length_cons, hnl]
        omega

/-- `loads` undoes `dumps`, producing the key-sorted canonical form. -/
theorem loads_dumps (v : Json) : loads (dumps v) = some (canonicalize v) := by
  unfold loads dumps
  have hdata : (String.mk (dumpVal 0 (canonicalize v))).data
      = dumpVal 0 (canonicalize v) := rfl
  rw [hdata]
  have hlen := (fuel_le_len (sizeOf (canonicalize v))).1 (canonicalize v) 0
    (le_refl _)
  have hparse := (parse_print ((dumpVal 0 (canonicalize v)).length + 1)).1
    (canonicalize v) 0 [] (by omega) trivial
  rw [List.append_nil] at hparse
  rw [hparse]
  simp [skipWs]

/-- Structural induction principle for nested JSON values. -/
theorem json_induction (P : Json → Prop)
    (hnull : P Json.null) (hbool : ∀ b, P (Json.bool b))
    (hnum : ∀ n, P (Json.num n)) (hstr : ∀ s, P (Json.str s))
    (harr : ∀ xs, (∀ x ∈ xs, P x) → P (Json.arr xs))
    (hobj : ∀ kvs, (∀ p ∈ kvs, P p.2) → P (Json.obj kvs)) :
    ∀ v, P v := by
  have hstrong : ∀ N v, sizeOf v ≤ N → P v := by
    intro N
    induction N with
    | zero =>
      intro v hv
      have := json_sizeOf_pos v
      omega
    | succ n ihN =>
      intro v hv
      cases v with
      | null => exact hnull
      | bool b => exact hbool b
      | num m => exact hnum m
      | str s => exact hstr s
      | arr xs =>
        refine harr xs (fun x hx => ihN x ?_)
        have hlt := List.sizeOf_lt_of_mem hx
        simp at hv
        omega
      | obj kvs =>
        refine hobj kvs (fun p hp => ihN p.2 ?_)
        have hlt := List.sizeOf_lt_of_mem hp
        obtain ⟨a, b⟩ := p
        simp at hv hlt ⊢
        omega
  exact fun v => hstrong (sizeOf v) v (le_refl _)

/-- Canonicalization equations. -/
theorem canonicalize_arr (xs : List Json) :
    canonicalize (Json.arr xs) = Json.arr (xs.map canonicalize) := by
  rw [canonicalize.eq_def]
  simp only []
  rw [List.attach_map_val xs canonicalize]

/-- Canonicalization of objects: children first, then a stable key
sort. -/
theorem canonicalize_obj (kvs : List (String × Json)) :
    canonicalize (Json.obj kvs) =
      Json.obj (sortMembers (kvs.map (fun p => (p.1, canonicalize p.2)))) := by
  rw [canonicalize.eq_def]
  simp only []
  rw [List.attach_map_val kvs (fun p => (p.1, canonicalize p.2))]

/-- The member sort produces a key-sorted list. -/
theorem sortMembers_sorted (l : List (String × Json)) :
    List.Sorted (fun a b : String × Json => a.1 ≤ b.1) (sortMembers l) := by
  haveI : IsTotal (String × Json) (fun a b => a.1 ≤ b.1) :=
    ⟨fun a b => le_total a.1 b.1⟩
  haveI : IsTrans (String × Json) (fun a b => a.1 ≤ b.1) :=
    ⟨fun a b c h1 h2 => le_trans h1 h2⟩
  exact List.sorted_insertionSort _ l

/-- Canonicalization is idempotent: re-sorting sorted members with
already-canonical values changes nothing, so two values are equal
modulo key ordering exactly when their canonical forms agree. -/
theorem canonicalize_idem : ∀ v, canonicalize (canonicalize v) = canonicalize v := by
  have hnull : canonicalize Json.null = Json.null := by
    rw [canonicalize.eq_def]
  have hbool : ∀ b, canonicalize (Json.bool b) = Json.bool b := by
    intro b
    rw [canonicalize.eq_def]
  have hnum : ∀ n, canonicalize (Json.num n) = Json.num n := by
    intro n
    rw [canonicalize.eq_def]
  have hstr : ∀ s, canonicalize (Json.str s) = Json.str s := by
    intro s
    rw [canonicalize.eq_def]
  refine json_induction _ (by rw [hnull, hnull]) (fun b => by
    rw [hbool, hbool]) (fun n => by rw [hnum, hnum]) (fun s => by
    rw [hstr, hstr]) ?_ ?_
  · intro xs hIH
    rw [canonicalize_arr, canonicalize_arr, List.map_map]
    congr 1
    apply List.map_congr_left
    intro x hx
    exact hIH x hx
  · intro kvs hIH
    rw [canonicalize_obj, canonicalize_obj]
    congr 1
    have hself : (sortMembers (kvs.map (fun p => (p.1, canonicalize p.2)))).map
        (fun p => (p.1, canonicalize p.2)) =
        sortMembers (kvs.map (fun p => (p.1, canonicalize p.2))) := by
      have hid : ∀ p ∈ sortMembers (kvs.map (fun p => (p.1, canonicalize p.2))),
          (fun p : String × Json => (p.1, canonicalize p.2)) p = id p := by
        intro p hp
        unfold sortMembers at hp
        rw [List.mem_insertionSort] at hp
        obtain ⟨q, hq, hfq⟩ := List.mem_map.mp hp
        rw [← hfq]
        show (q.1, canonicalize (canonicalize q.2)) = id (q.1, canonicalize q.2)
        rw [hIH q hq]
        rfl
      rw [List.map_congr_left hid, List.map_id]
    rw [hself]
    have hsorted := sortMembers_sorted (kvs.map (fun p => (p.1, canonicalize p.2)))
    unfold sortMembers
    exact List.Sorted.insertionSort_eq hsorted

/-- C5: rendering a step record in the structured (`json`) mode emits
`json.dumps(step, ensure_ascii=False, indent=4, sort_keys=True)` — a
serialization whose objects carry deterministically sorted keys — and
parsing the emitted document back yields the record's key-sorted
canonical form, i.e. a record equal to the original modulo key
ordering: conjunct two shows "equal modulo key ordering" is agreement
of canonical forms (the parse result and the original have the same
canonical form), and conjunct three shows the serialization is
canonical — invariant under key reordering of the input. -/
theorem json_structured_mode_roundtrip (v : Json) :
    loads (dumps v) = some (canonicalize v) ∧
    canonicalize (canonicalize v) = canonicalize v ∧
    dumps (canonicalize v) = dumps v :=
  ⟨loads_dumps v, canonicalize_idem v, by unfold dumps; rw [canonicalize_idem]⟩

/-- C7 (code evaluation at the failing input): for the credentials
file `creds.env` with well-formed key=value content, the loader raises
`ArgumentError` before any network call, although the claim (and the
program's own `--credentials` help text) promise the `.env` key=value
format: the code compares `file_name` — the stem — with `".env"`
instead of `file_extension`. Even a file literally named `.env` (stem
`.env`, empty extension) reaches the key=value branch only to raise
`ValueError`, because `for line in file.read()` iterates characters,
not lines. -/
theorem sign_in_env_file_rejected :
    sign_in_credentials "creds.env" "login=a\npassword=b\n" =
      Except.error (PyError.argumentError
        "An unfamiliar file type for credentials .env from the creds file") ∧
    sign_in_credentials ".env" "login=a\npassword=b\n" =
      Except.error PyError.valueError := by
  constructor
  · rfl
  · rfl

/-- Lookup after a dict assignment. -/
theorem dictGet?_dictInsert {β : Type} :
    ∀ (m : List (Nat × β)) (k v k2),
      dictGet? (dictInsert m k v) k2 =
        if k2 = k then some v else dictGet? m k2 := by
  intro m
  induction m with
  | nil =>
    intro k v k2
    by_cases h : k2 = k
    · subst h
      simp [dictInsert, dictGet?]
    · simp [dictInsert, dictGet?, h, Ne.symm h]
  | cons p rest ih =>
    intro k v k2
    obtain ⟨k0, v0⟩ := p
    by_cases h0 : k0 = k
    · subst h0
      by_cases h2 : k2 = k0
      · subst h2
        simp [dictInsert, dictGet?]
      · simp [dictInsert, dictGet?, h2, Ne.symm h2]
    · by_cases h2 : k0 = k2
      · subst h2
        simp [dictInsert, dictGet?, h0, Ne.symm h0]
      · simp [dictInsert, dictGet?, h0, h2, ih]

/-- Lookup after appending to the list stored under a key. -/
theorem dictGet?_dictAppendAt :
    ∀ (m : List (Nat × List Nat)) (k x k2),
      dictGet? (dictAppendAt m k x) k2 =
        if k2 = k then (dictGet? m k).map (fun l => l ++ [x])
        else dictGet? m k2 := by
  intro m
  induction m with
  | nil =>
    intro k x k2
    by_cases h : k2 = k
    · subst h
      simp [dictAppendAt, dictGet?]
    · simp [dictAppendAt, dictGet?, h]
  | cons p rest ih =>
    intro k x k2
    obtain ⟨k0, v0⟩ := p
    by_cases h0 : k0 = k
    · subst h0
      by_cases h2 : k2 = k0
      · subst h2
        simp [dictAppendAt, dictGet?]
      · simp [dictAppendAt, dictGet?, h2, Ne.symm h2]
    · by_cases h2 : k0 = k2
      · subst h2
        simp [dictAppendAt, dictGet?, h0, Ne.symm h0]
      · simp [dictAppendAt, dictGet?, h0, h2, ih]

/-- Membership agrees with lookup. -/
theorem dictContains_eq_isSome {β : Type} :
    ∀ (m : List (Nat × β)) (k), dictContains m k = (dictGet? m k).isSome := by
  intro m
  induction m with
  | nil => intro k; simp [dictContains, dictGet?]
  | cons p rest ih =>
    intro k
    obtain ⟨k0, v0⟩ := p
    by_cases h0 : k0 = k
    · subst h0
      simp [dictContains, dictGet?]
    · have h1 : dictContains ((k0, v0) :: rest) k
          = ((k0 == k) || dictContains rest k) := by
        simp [dictContains]
      have h2 : dictGet? ((k0, v0) :: rest) k
          = if k0 = k then some v0 else dictGet? rest k := rfl
      rw [h1, h2, if_neg h0, ih]
      have hb : (k0 == k) = false := by simp [h0]
      rw [hb, Bool.false_or]

/-- After the initialization loop, every chapter id maps to the empty
list and nothing else has been added to the dict. -/
theorem chapters_init_lookup (cid : Nat) :
    ∀ (chapters : List ChapterRec) (m0 : List (Nat × List Nat)),
      dictGet? (chapters.foldl (fun m ch => dictInsert m ch.id []) m0) cid =
        if cid ∈ chapters.map ChapterRec.id then some []
        else dictGet? m0 cid := by
  intro chapters
  induction chapters with
  | nil =>
    intro m0
    simp
  | cons ch rest ih =>
    intro m0
    simp only [List.foldl_cons]
    rw [ih]
    by_cases hrest : cid ∈ rest.map ChapterRec.id
    · have hmem : cid ∈ (ch :: rest).map ChapterRec.id := by
        rw [List.map_cons]
        exact List.mem_cons_of_mem _ hrest
      rw [if_pos hrest, if_pos hmem]
    · rw [if_neg hrest, dictGet?_dictInsert]
      by_cases hc : cid = ch.id
      · have hmem : cid ∈ (ch :: rest).map ChapterRec.id := by
          rw [List.map_cons, hc]
          exact List.mem_cons_self _ _
        rw [if_pos hc, if_pos hmem]
      · have hmem : cid ∉ (ch :: rest).map ChapterRec.id := by
          rw [List.map_cons]
          intro hmm
          cases List.mem_cons.mp hmm with
          | inl h => exact hc h
          | inr h => exact hrest h
        rw [if_neg hc, if_neg hmem]

/-- Folding the step loop over the dict appends exactly the filtered
step ids to a key already present, and leaves absent keys absent. -/
theorem steps_fold_lookup (cid : Nat) :
    ∀ (steps : List StepMeta) (m : List (Nat × List Nat)),
      dictGet? (steps.foldl
        (fun m st =>
          if dictContains m st.chapter_id && !st.hidden then
            dictAppendAt m st.chapter_id st.id
          else m) m) cid =
      (dictGet? m cid).map
        (fun l => l ++ (steps.filter
          (fun s => s.chapter_id == cid && !s.hidden)).map StepMeta.id) := by
  intro steps
  induction steps with
  | nil =>
    intro m
    cases h : dictGet? m cid <;> simp [h]
  | cons st rest ih =>
    intro m
    simp only [List.foldl_cons]
    by_cases hcond : (dictContains m st.chapter_id && !st.hidden) = true
    · rw [if_pos hcond, ih, dictGet?_dictAppendAt]
      by_cases hcid : cid = st.chapter_id
      · have hmatch : (st.chapter_id == cid && !st.hidden) = true := by
          rw [Bool.and_eq_true] at hcond ⊢
          exact ⟨by simp [hcid.symm], hcond.2⟩
        rw [if_pos hcid]
        simp only [List.filter_cons]
        rw [if_pos hmatch, ← hcid]
        cases h : dictGet? m cid with
        | none => simp
        | some l => simp [h]
      · have hmatch : ¬((st.chapter_id == cid && !st.hidden) = true) := by
          rw [Bool.and_eq_true]
          intro ⟨hcc, _⟩
          exact hcid (eq_of_beq hcc).symm
        rw [if_neg hcid]
        simp only [List.filter_cons]
        rw [if_neg hmatch]
    · rw [if_neg hcond, ih]
      by_cases hmatch : (st.chapter_id == cid && !st.hidden) = true
      · have hcid : st.chapter_id = cid := by
          rw [Bool.and_eq_true] at hmatch
          exact eq_of_beq hmatch.1
        have hnone : dictGet? m cid = none := by
          rw [Bool.and_eq_true] at hmatch
          have hcont : dictContains m st.chapter_id = false := by
            cases hcc : dictContains m st.chapter_id with
            | false => rfl
            | true =>
              exfalso
              apply hcond
              rw [Bool.and_eq_true]
              exact ⟨hcc, hmatch.2⟩
          rw [dictContains_eq_isSome] at hcont
          rw [← hcid]
          exact Option.not_isSome_iff_eq_none.mp (by simp [hcont])
        rw [hnone]
        simp
      · simp only [List.filter_cons]
        rw [if_neg hmatch]

/-- C3: the grouping maps a chapter id of the subject's chapters list
to exactly the ids of the non-hidden steps referencing it, in step
order; any other id is absent from the dict, and every id in a
chapter's list comes from a non-hidden step of that chapter (so hidden
steps and steps referencing unknown chapters appear in no list). -/
theorem chapters_topics_mapper_spec (chapters : List ChapterRec)
    (steps : List StepMeta) (cid : Nat) :
    (dictGet? (chapters_topics_mapper chapters steps) cid =
      if cid ∈ chapters.map ChapterRec.id then
        some ((steps.filter
          (fun s => s.chapter_id == cid && !s.hidden)).map StepMeta.id)
      else none) ∧
    (∀ l, dictGet? (chapters_topics_mapper chapters steps) cid = some l →
      ∀ sid ∈ l, ∃ s ∈ steps, s.id = sid ∧ s.chapter_id = cid ∧
        s.hidden = false) := by
  have hmain : dictGet? (chapters_topics_mapper chapters steps) cid =
      if cid ∈ chapters.map ChapterRec.id then
        some ((steps.filter
          (fun s => s.chapter_id == cid && !s.hidden)).map StepMeta.id)
      else none := by
    unfold chapters_topics_mapper
    rw [steps_fold_lookup, chapters_init_lookup]
    by_cases hc : cid ∈ chapters.map ChapterRec.id
    · rw [if_pos hc, if_pos hc]
      simp
    · rw [if_neg hc, if_neg hc]
      simp [dictGet?]
  refine ⟨hmain, ?_⟩
  intro l hl sid hsid
  rw [hmain] at hl
  by_cases hc : cid ∈ chapters.map ChapterRec.id
  · rw [if_pos hc] at hl
    have hleq := Option.some.inj hl
    rw [← hleq] at hsid
    obtain ⟨s, hsmem, hsid_eq⟩ := List.mem_map.mp hsid
    have hsfilt := List.mem_filter.mp hsmem
    have hcc := hsfilt.2
    rw [Bool.and_eq_true] at hcc
    refine ⟨s, hsfilt.1, hsid_eq, eq_of_beq hcc.1, ?_⟩
    have hh := hcc.2
    simp at hh
    exact hh
  · rw [if_neg hc] at hl
    cases hl

end Bulgakov
